import Mathlib

/-!
# Verification of the flat token-tree codec (`proc-macro-api/src/msg/flat.rs`)

A shallow embedding of the flatten/unflatten codec: an in-memory token tree
(`Subtree` / `TokenTree`) is flattened breadth-first into flat word arrays
(`FlatTree`), and reconstructed by processing subtree records from the highest
index down to `0`.

Modelling conventions:

* `u32` machine words are modelled as `Nat` (the algorithm performs no
  arithmetic where wrap-around is intended; `!0` sentinels are the constant
  `UMAX`).
* The codec in the source is generic over a span type `S` with capability
  `into_u32 : S -> [u32; L]` / `from_u32 : [u32; L] -> S`.  We instantiate the
  generic code at the canonical lossless instance: a span *is* its list of `L`
  words (`Span := List Nat`, conversion the identity), with well-formedness
  `TTWf L` recording that every span in a tree has exactly `L` words.
* The version thresholds `VARIABLE_SIZED_SPANS` and `ENCODE_CLOSE_SPAN_VERSION`
  are constants imported from the enclosing crate (not part of this file's
  source); following the spec they are kept as explicit `Nat` parameters
  (`VSS`, `ECS`) of the two entry points, so every theorem quantifies over
  them.
* Rust panics (`assert!`, slice-index panics, `unwrap`, unreachable `match`
  arms) are modelled as `Option`/`Except` failures; the decoder returns
  `Except DErr` with a distinct error token per panic site.
* The writer's `work: VecDeque` is threaded as the explicit queue argument of
  `Writer.drain`; `HashMap<&str, u32>` interning is an association list whose
  entry set is maintained equal to `tableOf 0 text` (string content paired
  with its index).
-/

namespace Flat

/-! ## Tree domain model (`tt::Subtree`, `tt::Leaf`, `tt::TokenTree`) -/

inductive DelimiterKind where
  | invisible
  | parenthesis
  | brace
  | bracket
deriving DecidableEq, Repr

inductive Spacing where
  | alone
  | joint
deriving DecidableEq, Repr

/-- A span is its `L`-word wire representation (`into_u32`/`from_u32` are the
identity at this instance). -/
abbrev Span := List Nat

structure Delimiter where
  openSpan : Span
  closeSpan : Span
  kind : DelimiterKind
deriving DecidableEq, Repr

inductive TokenTree where
  | subtree (delimiter : Delimiter) (token_trees : List TokenTree)
  | leafLiteral (text : String) (span : Span)
  | leafPunct (char : Nat) (spacing : Spacing) (span : Span)
  | leafIdent (text : String) (span : Span)

structure Subtree where
  delimiter : Delimiter
  token_trees : List TokenTree

/-- The `u32` all-ones sentinel `!0` used for unresolved fields. -/
def UMAX : Nat := 2 ^ 32 - 1

/-- `S::DUMMY` of the span capability: the placeholder span value. -/
def dummySpan (L : Nat) : Span := List.replicate L UMAX

/-! ## Wire record representations -/

structure SubtreeRepr where
  openSpan : Span
  closeSpan : Span
  kind : DelimiterKind
  tt : Nat × Nat
deriving DecidableEq, Repr

structure LiteralRepr where
  id : Span
  text : Nat
deriving DecidableEq, Repr

structure PunctRepr where
  id : Span
  char : Nat
  spacing : Spacing
deriving DecidableEq, Repr

structure IdentRepr where
  id : Span
  text : Nat
deriving DecidableEq, Repr

/-! ## Writer state (`struct Writer`) -/

structure Writer where
  string_table : List (String × Nat)
  subtree : List SubtreeRepr
  literal : List LiteralRepr
  punct : List PunctRepr
  ident : List IdentRepr
  token_tree : List Nat
  text : List String

def Writer.init : Writer :=
  { string_table := [], subtree := [], literal := [], punct := [],
    ident := [], token_tree := [], text := [] }

/-- `Writer::intern`: map a string to its index in `text`, inserting on a
miss. -/
def Writer.intern (w : Writer) (s : String) : Writer × Nat :=
  match w.string_table.lookup s with
  | some idx => (w, idx)
  | none =>
      let idx := w.text.length
      ({ w with text := w.text ++ [s],
                string_table := w.string_table ++ [(s, idx)] }, idx)

/-- `Writer::enqueue`: allocate the next subtree index and push a placeholder
record (delimiter captured, children range left as the `!0` sentinel).  The
caller appends the `(idx, subtree)` pair to the work queue. -/
def Writer.enqueue (w : Writer) (s : Subtree) : Writer × Nat :=
  let idx := w.subtree.length
  ({ w with subtree := w.subtree ++
      [{ openSpan := s.delimiter.openSpan, closeSpan := s.delimiter.closeSpan,
         kind := s.delimiter.kind, tt := (UMAX, UMAX) }] }, idx)

/-- Set the `tt` (children-range) field of the record at index `i`
(`self.subtree[idx].tt = [first_tt, first_tt + n_tt]`). -/
def setTT : List SubtreeRepr → Nat → Nat × Nat → List SubtreeRepr
  | [], _, _ => []
  | r :: rs, 0, tt => { r with tt := tt } :: rs
  | r :: rs, n + 1, tt => r :: setTT rs n tt

/-- One child of the loop body of `Writer::subtree`: returns the updated
state, the tagged index written into `token_tree`, and the work-queue items
pushed by `enqueue` (empty for leaves). -/
def Writer.writeChild (w : Writer) (child : TokenTree) :
    Writer × Nat × List (Nat × Subtree) :=
  match child with
  | .subtree d ts =>
      let p := w.enqueue ⟨d, ts⟩
      (p.1, p.2 <<< 2, [(p.2, ⟨d, ts⟩)])
  | .leafLiteral text span =>
      let idx := w.literal.length
      let p := w.intern text
      ({ p.1 with literal := p.1.literal ++ [{ id := span, text := p.2 }] },
        idx <<< 2 ||| 1, [])
  | .leafPunct ch sp span =>
      let idx := w.punct.length
      ({ w with punct := w.punct ++ [{ id := span, char := ch, spacing := sp }] },
        idx <<< 2 ||| 2, [])
  | .leafIdent text span =>
      let idx := w.ident.length
      let p := w.intern text
      ({ p.1 with ident := p.1.ident ++ [{ id := span, text := p.2 }] },
        idx <<< 2 ||| 3, [])

/-- The children loop of `Writer::subtree`: each tagged index is appended to
`token_tree` (the source reserves the block up front and fills it left to
right; nothing else appends to `token_tree` in between, so the result is the
same flat block).  Returns the enqueued work items in order. -/
def Writer.writeChildren (w : Writer) :
    List TokenTree → Writer × List (Nat × Subtree)
  | [] => (w, [])
  | c :: cs =>
      let p := w.writeChild c
      let w1 := { p.1 with token_tree := p.1.token_tree ++ [p.2.1] }
      let q := w1.writeChildren cs
      (q.1, p.2.2 ++ q.2)

/-! ## Sizes (termination measure for the breadth-first work queue) -/

mutual

def TokenTree.size : TokenTree → Nat
  | .subtree _ ts => 1 + sizeList ts
  | .leafLiteral _ _ => 1
  | .leafPunct _ _ _ => 1
  | .leafIdent _ _ => 1

def sizeList : List TokenTree → Nat
  | [] => 0
  | t :: ts => t.size + sizeList ts

end

def Subtree.size (s : Subtree) : Nat := 1 + sizeList s.token_trees

def queueMeasure (q : List (Nat × Subtree)) : Nat :=
  (q.map (fun p => p.2.size)).sum

theorem queueMeasure_cons (p : Nat × Subtree) (q : List (Nat × Subtree)) :
    queueMeasure (p :: q) = p.2.size + queueMeasure q := by
  simp [queueMeasure]

theorem queueMeasure_append (q1 q2 : List (Nat × Subtree)) :
    queueMeasure (q1 ++ q2) = queueMeasure q1 + queueMeasure q2 := by
  simp [queueMeasure]

theorem queueMeasure_writeChild (w : Writer) (c : TokenTree) :
    queueMeasure (w.writeChild c).2.2 ≤ c.size := by
  cases c <;> simp [Writer.writeChild, queueMeasure, Subtree.size, TokenTree.size]

theorem queueMeasure_writeChildren (w : Writer) (cs : List TokenTree) :
    queueMeasure (w.writeChildren cs).2 ≤ sizeList cs := by
  induction cs generalizing w with
  | nil => simp [Writer.writeChildren, queueMeasure]
  | cons c cs ih =>
      simp only [Writer.writeChildren, queueMeasure_append, sizeList]
      exact Nat.add_le_add (queueMeasure_writeChild w c) (ih _)

/-- `Writer::subtree`: record the children range of record `idx`, then write
all children. -/
def Writer.subtreeStep (w : Writer) (idx : Nat) (s : Subtree) :
    Writer × List (Nat × Subtree) :=
  let first_tt := w.token_tree.length
  let n_tt := s.token_trees.length
  let w1 := { w with subtree := setTT w.subtree idx (first_tt, first_tt + n_tt) }
  w1.writeChildren s.token_trees

theorem queueMeasure_subtreeStep (w : Writer) (idx : Nat) (s : Subtree) :
    queueMeasure (w.subtreeStep idx s).2 < s.size := by
  have h := queueMeasure_writeChildren
    { w with subtree := setTT w.subtree idx (w.token_tree.length,
        w.token_tree.length + s.token_trees.length) } s.token_trees
  simp only [Writer.subtreeStep, Subtree.size]
  omega

/-- The `while let Some((idx, subtree)) = self.work.pop_front()` loop of
`Writer::write`, with the `VecDeque` threaded explicitly. -/
def Writer.drain (w : Writer) (q : List (Nat × Subtree)) : Writer :=
  match q with
  | [] => w
  | (idx, s) :: rest =>
      let p := w.subtreeStep idx s
      p.1.drain (rest ++ p.2)
termination_by queueMeasure q
decreasing_by
  simp only [queueMeasure_append, queueMeasure_cons]
  have := queueMeasure_subtreeStep w idx s
  omega

/-- `Writer::write`: enqueue the root, then drain the work queue. -/
def Writer.write (root : Subtree) : Writer :=
  let p := Writer.init.enqueue root
  p.1.drain [(p.2, root)]

/-! ## Span codec (`SpanMap`) and record serialization -/

structure SpanMap where
  serialize : Bool
  span_size : Nat
  spans : List Nat
deriving DecidableEq, Repr

/-- `SpanMap::serialize_span`: at width `1` the single word is the span
itself; otherwise the `L` words are appended to the side table and the old
table length is the offset. -/
def SpanMap.serialize_span (L : Nat) (m : SpanMap) (span : Span) :
    SpanMap × Nat :=
  if L = 1 then (m, span.headD 0)
  else
    let offset := m.spans.length
    ({ m with spans := m.spans ++ span }, offset)

/-- Decoder failure tokens, one per panic site of the source. -/
inductive DErr where
  | assertFailed
  | chunkRemainder
  | badKind
  | badSpacing
  | badTag
  | oob
  | takeEmpty
deriving DecidableEq, Repr

/-- `SpanMap::deserialize_span`: at width `1` the word is the span; otherwise
read `L` words of the side table at `offset` (slice panic out of range). -/
def SpanMap.deserialize_span (L : Nat) (m : SpanMap) (offset : Nat) :
    Except DErr Span :=
  if L = 1 then .ok [offset]
  else if offset + L ≤ m.spans.length then .ok ((m.spans.drop offset).take L)
  else .error .oob

def kindToNat : DelimiterKind → Nat
  | .invisible => 0
  | .parenthesis => 1
  | .brace => 2
  | .bracket => 3

def kindOfNat : Nat → Except DErr DelimiterKind
  | 0 => .ok .invisible
  | 1 => .ok .parenthesis
  | 2 => .ok .brace
  | 3 => .ok .bracket
  | _ => .error .badKind

def spacingToNat : Spacing → Nat
  | .alone => 0
  | .joint => 1

def spacingOfNat : Nat → Except DErr Spacing
  | 0 => .ok .alone
  | 1 => .ok .joint
  | _ => .error .badSpacing

def SubtreeRepr.write (L : Nat) (r : SubtreeRepr) (m : SpanMap) :
    SpanMap × List Nat :=
  let p := m.serialize_span L r.openSpan
  (p.1, [p.2, kindToNat r.kind, r.tt.1, r.tt.2])

def SubtreeRepr.write_with_close_span (L : Nat) (r : SubtreeRepr) (m : SpanMap) :
    SpanMap × List Nat :=
  let p := m.serialize_span L r.openSpan
  let q := p.1.serialize_span L r.closeSpan
  (q.1, [p.2, q.2, kindToNat r.kind, r.tt.1, r.tt.2])

/-- `SubtreeRepr::read` (4-word shape): the close span becomes `S::DUMMY`. -/
def SubtreeRepr.read (L : Nat) (ws : List Nat) (m : SpanMap) :
    Except DErr SubtreeRepr :=
  match ws with
  | [o, kind, lo, len] => do
      let k ← kindOfNat kind
      let os ← m.deserialize_span L o
      .ok { openSpan := os, closeSpan := dummySpan L, kind := k, tt := (lo, len) }
  | _ => .error .chunkRemainder

def SubtreeRepr.read_with_close_span (L : Nat) (ws : List Nat) (m : SpanMap) :
    Except DErr SubtreeRepr :=
  match ws with
  | [o, c, kind, lo, len] => do
      let k ← kindOfNat kind
      let os ← m.deserialize_span L o
      let cs ← m.deserialize_span L c
      .ok { openSpan := os, closeSpan := cs, kind := k, tt := (lo, len) }
  | _ => .error .chunkRemainder

def LiteralRepr.write (L : Nat) (r : LiteralRepr) (m : SpanMap) :
    SpanMap × List Nat :=
  let p := m.serialize_span L r.id
  (p.1, [p.2, r.text])

def LiteralRepr.read (L : Nat) (ws : List Nat) (m : SpanMap) :
    Except DErr LiteralRepr :=
  match ws with
  | [id, text] => do
      let sp ← m.deserialize_span L id
      .ok { id := sp, text := text }
  | _ => .error .chunkRemainder

def PunctRepr.write (L : Nat) (r : PunctRepr) (m : SpanMap) :
    SpanMap × List Nat :=
  let p := m.serialize_span L r.id
  (p.1, [p.2, r.char, spacingToNat r.spacing])

def PunctRepr.read (L : Nat) (ws : List Nat) (m : SpanMap) :
    Except DErr PunctRepr :=
  match ws with
  | [id, ch, spacing] => do
      let sp ← spacingOfNat spacing
      let s ← m.deserialize_span L id
      .ok { id := s, char := ch, spacing := sp }
  | _ => .error .chunkRemainder

def IdentRepr.write (L : Nat) (r : IdentRepr) (m : SpanMap) :
    SpanMap × List Nat :=
  let p := m.serialize_span L r.id
  (p.1, [p.2, r.text])

def IdentRepr.read (L : Nat) (ws : List Nat) (m : SpanMap) :
    Except DErr IdentRepr :=
  match ws with
  | [id, text] => do
      let sp ← m.deserialize_span L id
      .ok { id := sp, text := text }
  | _ => .error .chunkRemainder

/-- The local `write_vec` of `FlatTree::new`: a stateful `flat_map` threading
the span side table left to right. -/
def write_vec {α : Type} (m : SpanMap) (xs : List α)
    (f : α → SpanMap → SpanMap × List Nat) : SpanMap × List Nat :=
  match xs with
  | [] => (m, [])
  | x :: rest =>
      let p := f x m
      let q := write_vec p.1 rest f
      (q.1, p.2 ++ q.2)

/-- The full `N`-word chunks of `xs` (`chunks_exact(N)`), remainder dropped. -/
def exactChunks (N : Nat) (xs : List Nat) : List (List Nat) :=
  if _h : 0 < N ∧ N ≤ xs.length then
    xs.take N :: exactChunks N (xs.drop N)
  else []
termination_by xs.length
decreasing_by simp [List.length_drop]; omega

/-- The local `read_vec` of `FlatTree::to_subtree`: parse every full chunk,
then `assert!(chunks.remainder().is_empty())`. -/
def read_vec {α : Type} (m : SpanMap) (xs : List Nat)
    (f : List Nat → SpanMap → Except DErr α) (N : Nat) :
    Except DErr (List α) := do
  let res ← (exactChunks N xs).mapM (fun c => f c m)
  if xs.length % N = 0 then .ok res else .error .chunkRemainder

/-! ## The wire structure and the two entry points -/

structure FlatTree where
  subtree : List Nat
  literal : List Nat
  punct : List Nat
  ident : List Nat
  token_tree : List Nat
  text : List String
  span_map : SpanMap
deriving DecidableEq, Repr

/-- `FlatTree::new` (encode).  `L` is the span word width; `VSS` and `ECS` are
the crate-level version thresholds `VARIABLE_SIZED_SPANS` and
`ENCODE_CLOSE_SPAN_VERSION` (constants imported from the enclosing crate,
kept as parameters here).  The `assert!(L == 1 || version >=
VARIABLE_SIZED_SPANS)` panic is the `none` result. -/
def FlatTree.new (L VSS ECS : Nat) (subtree : Subtree) (version : Nat) :
    Option FlatTree :=
  let w := Writer.write subtree
  if L = 1 ∨ VSS ≤ version then
    let m0 : SpanMap :=
      { serialize := decide (VSS ≤ version) && !(L == 1),
        span_size := L, spans := [] }
    let p1 := if ECS ≤ version
      then write_vec m0 w.subtree (SubtreeRepr.write_with_close_span L)
      else write_vec m0 w.subtree (SubtreeRepr.write L)
    let p2 := write_vec p1.1 w.literal (LiteralRepr.write L)
    let p3 := write_vec p2.1 w.punct (PunctRepr.write L)
    let p4 := write_vec p3.1 w.ident (IdentRepr.write L)
    some { subtree := p1.2, literal := p2.2, punct := p3.2, ident := p4.2,
           token_tree := w.token_tree, text := w.text, span_map := p4.1 }
  else none

structure Reader where
  subtree : List SubtreeRepr
  literal : List LiteralRepr
  punct : List PunctRepr
  ident : List IdentRepr
  token_tree : List Nat
  text : List String

/-- `res[idx].take().unwrap()`: index panic is `.oob`, `unwrap` of an emptied
slot is `.takeEmpty`. -/
def takeSlot (slots : List (Option Subtree)) (idx : Nat) :
    Except DErr (Subtree × List (Option Subtree)) :=
  match slots[idx]? with
  | some (some s) => .ok (s, slots.set idx none)
  | some none => .error .takeEmpty
  | none => .error .oob

/-- Dispatch on the 2-bit tag of one `token_tree` entry. -/
def Reader.readEntry (r : Reader) (slots : List (Option Subtree))
    (idx_tag : Nat) : Except DErr (TokenTree × List (Option Subtree)) :=
  let tag := idx_tag &&& 3
  let idx := idx_tag >>> 2
  match tag with
  | 0 => do
      let p ← takeSlot slots idx
      .ok (.subtree p.1.delimiter p.1.token_trees, p.2)
  | 1 =>
      match r.literal[idx]? with
      | some repr =>
          match r.text[repr.text]? with
          | some t => .ok (.leafLiteral t repr.id, slots)
          | none => .error .oob
      | none => .error .oob
  | 2 =>
      match r.punct[idx]? with
      | some repr => .ok (.leafPunct repr.char repr.spacing repr.id, slots)
      | none => .error .oob
  | 3 =>
      match r.ident[idx]? with
      | some repr =>
          match r.text[repr.text]? with
          | some t => .ok (.leafIdent t repr.id, slots)
          | none => .error .oob
      | none => .error .oob
  | _ => .error .badTag

/-- The children `map` of `Reader::read`, threading the slot array through
the `take`s. -/
def Reader.readChildren (r : Reader) :
    List Nat → List (Option Subtree) →
    Except DErr (List TokenTree × List (Option Subtree))
  | [], slots => .ok ([], slots)
  | e :: es, slots => do
      let p ← r.readEntry slots e
      let q ← r.readChildren es p.2
      .ok (p.1 :: q.1, q.2)

/-- `&token_tree[lo..hi]`. -/
def sliceTT (tt : List Nat) (lo hi : Nat) : List Nat :=
  (tt.drop lo).take (hi - lo)

/-- The `for i in (0..subtree.len()).rev()` loop of `Reader::read`:
`readLoop (i+1) slots` processes index `i` and recurses on `i`. -/
def Reader.readLoop (r : Reader) :
    Nat → List (Option Subtree) → Except DErr (List (Option Subtree))
  | 0, slots => .ok slots
  | i + 1, slots =>
      match r.subtree[i]? with
      | some repr =>
          if repr.tt.1 ≤ repr.tt.2 ∧ repr.tt.2 ≤ r.token_tree.length then do
            let p ← r.readChildren (sliceTT r.token_tree repr.tt.1 repr.tt.2) slots
            let s : Subtree :=
              { delimiter := { openSpan := repr.openSpan,
                               closeSpan := repr.closeSpan, kind := repr.kind },
                token_trees := p.1 }
            r.readLoop i (p.2.set i (some s))
          else .error .oob
      | none => .error .oob

/-- `Reader::read`: process indices high to low, then take the root slot. -/
def Reader.read (r : Reader) : Except DErr Subtree := do
  let slots ← r.readLoop r.subtree.length (List.replicate r.subtree.length none)
  match slots[0]? with
  | some (some s) => .ok s
  | some none => .error .takeEmpty
  | none => .error .oob

/-- `FlatTree::to_subtree` (decode).  The entry `assert!` is the
`.assertFailed` failure. -/
def FlatTree.to_subtree (L VSS ECS : Nat) (ft : FlatTree) (version : Nat) :
    Except DErr Subtree :=
  if (VSS ≤ version ∨ L = 1) ∧ L = ft.span_map.span_size then do
    let sub ← if ECS ≤ version
      then read_vec ft.span_map ft.subtree (SubtreeRepr.read_with_close_span L) 5
      else read_vec ft.span_map ft.subtree (SubtreeRepr.read L) 4
    let lit ← read_vec ft.span_map ft.literal (LiteralRepr.read L) 2
    let pun ← read_vec ft.span_map ft.punct (PunctRepr.read L) 3
    let idn ← read_vec ft.span_map ft.ident (IdentRepr.read L) 2
    Reader.read { subtree := sub, literal := lit, punct := pun, ident := idn,
                  token_tree := ft.token_tree, text := ft.text }
  else .error .assertFailed

/-! ## Span well-formedness: every span of the tree has exactly `L` words -/

inductive TTWf (L : Nat) : TokenTree → Prop where
  | subtree : d.openSpan.length = L → d.closeSpan.length = L →
      (∀ c, c ∈ cs → TTWf L c) → TTWf L (.subtree d cs)
  | literal : sp.length = L → TTWf L (.leafLiteral s sp)
  | punct : sp.length = L → TTWf L (.leafPunct ch spc sp)
  | ident : sp.length = L → TTWf L (.leafIdent s sp)

def SubWf (L : Nat) (t : Subtree) : Prop :=
  TTWf L (.subtree t.delimiter t.token_trees)

/-! ## Leaf texts and reachable subtrees (for the string-dedup property) -/

/-- The texts of the immediate literal/ident children of a subtree's child
list. -/
def directLeafTexts (cs : List TokenTree) : List String :=
  cs.filterMap fun c =>
    match c with
    | .leafLiteral s _ => some s
    | .leafIdent s _ => some s
    | _ => none

/-- The immediate subtree children of a child list. -/
def subtreeChildren (cs : List TokenTree) : List Subtree :=
  cs.filterMap fun c =>
    match c with
    | .subtree d ts => some ⟨d, ts⟩
    | _ => none

/-- Subtrees reachable from the root by descending into subtree children. -/
inductive Reach (root : Subtree) : Subtree → Prop where
  | refl : Reach root root
  | step {t c : Subtree} : Reach root t → c ∈ subtreeChildren t.token_trees →
      Reach root c

/-! ## Basic bit-packing arithmetic of the 2-bit tag scheme -/

theorem and3_eq_mod (n : Nat) : n &&& 3 = n % 4 := by
  simpa using Nat.and_pow_two_sub_one_eq_mod n 2

theorem shr2_eq_div (n : Nat) : n >>> 2 = n / 4 := by
  simpa using Nat.shiftRight_eq_div_pow n 2

theorem shl2_eq_mul (a : Nat) : a <<< 2 = 4 * a := by
  rw [Nat.shiftLeft_eq]; ring

theorem or_and_right (x y z : Nat) : (x ||| y) &&& z = (x &&& z) ||| (y &&& z) := by
  apply Nat.eq_of_testBit_eq
  intro i
  simp [Nat.testBit_or, Nat.testBit_and, Bool.and_or_distrib_right]

theorem or_shr (x y n : Nat) : (x ||| y) >>> n = x >>> n ||| y >>> n := by
  apply Nat.eq_of_testBit_eq
  intro i
  simp [Nat.testBit_or, Nat.testBit_shiftRight]

theorem shl2_and3 (a : Nat) : (a <<< 2) &&& 3 = 0 := by
  rw [shl2_eq_mul, and3_eq_mod]
  omega

theorem shl2_shr2 (a : Nat) : (a <<< 2) >>> 2 = a := by
  rw [shl2_eq_mul, shr2_eq_div]
  omega

theorem tag_of_shl_or (a t : Nat) (ht : t < 4) : (a <<< 2 ||| t) &&& 3 = t := by
  rw [or_and_right, shl2_and3, and3_eq_mod t, Nat.zero_or]
  omega

theorem idx_of_shl_or (a t : Nat) (ht : t < 4) : (a <<< 2 ||| t) >>> 2 = a := by
  rw [or_shr, shl2_shr2, shr2_eq_div t]
  have h : t / 4 = 0 := by omega
  rw [h, Nat.or_zero]

theorem tag_lt_four (n : Nat) : n &&& 3 < 4 := by
  rw [and3_eq_mod]; omega

/-! ## The bad-tag branch of the decoder is unreachable -/

theorem bind_ne_badTag {α β : Type} (e : Except DErr α) (f : α → Except DErr β)
    (he : e ≠ .error .badTag) (hf : ∀ a, f a ≠ .error .badTag) :
    (e >>= f) ≠ .error .badTag := by
  cases e with
  | error err => simpa [Bind.bind, Except.bind] using he
  | ok a => simpa [Bind.bind, Except.bind] using hf a

theorem mapM_ne_badTag {α β : Type} (f : α → Except DErr β) (xs : List α)
    (hf : ∀ x ∈ xs, f x ≠ .error .badTag) : xs.mapM f ≠ .error .badTag := by
  induction xs with
  | nil => simp [List.mapM, List.mapM.loop, pure, Except.pure]
  | cons x xs ih =>
      rw [List.mapM_cons]
      apply bind_ne_badTag _ _ (hf x (by simp))
      intro a
      apply bind_ne_badTag _ _ (ih fun y hy => hf y (List.mem_cons_of_mem _ hy))
      intro as
      simp [pure, Except.pure]

theorem takeSlot_ne_badTag (slots : List (Option Subtree)) (i : Nat) :
    takeSlot slots i ≠ .error .badTag := by
  rw [takeSlot]
  cases h : slots[i]? with
  | none => simp
  | some o => cases o <;> simp

theorem readEntry_ne_badTag (r : Reader) (slots : List (Option Subtree))
    (e : Nat) : r.readEntry slots e ≠ .error .badTag := by
  have h4 := tag_lt_four e
  have h : e &&& 3 = 0 ∨ e &&& 3 = 1 ∨ e &&& 3 = 2 ∨ e &&& 3 = 3 := by omega
  rw [Reader.readEntry]
  rcases h with h | h | h | h <;> rw [h]
  · exact bind_ne_badTag _ _ (takeSlot_ne_badTag _ _) (by intro p; simp)
  · cases h1 : r.literal[e >>> 2]? with
    | none => simp
    | some repr => cases h2 : r.text[repr.text]? <;> simp [h2]
  · cases h1 : r.punct[e >>> 2]? <;> simp [h1]
  · cases h1 : r.ident[e >>> 2]? with
    | none => simp
    | some repr => cases h2 : r.text[repr.text]? <;> simp [h2]

theorem readChildren_ne_badTag (r : Reader) :
    ∀ (es : List Nat) (slots : List (Option Subtree)),
    r.readChildren es slots ≠ .error .badTag := by
  intro es
  induction es with
  | nil => intro slots; simp [Reader.readChildren]
  | cons e es ih =>
      intro slots
      rw [Reader.readChildren]
      apply bind_ne_badTag _ _ (readEntry_ne_badTag r slots e)
      intro p
      apply bind_ne_badTag _ _ (ih p.2)
      intro q
      simp

theorem readLoop_ne_badTag (r : Reader) :
    ∀ (i : Nat) (slots : List (Option Subtree)),
    r.readLoop i slots ≠ .error .badTag := by
  intro i
  induction i with
  | zero => intro slots; simp [Reader.readLoop]
  | succ i ih =>
      intro slots
      rw [Reader.readLoop]
      cases h : r.subtree[i]? with
      | none => simp
      | some repr =>
          simp only
          split
          · apply bind_ne_badTag _ _ (readChildren_ne_badTag r _ slots)
            intro p
            exact ih _
          · simp

theorem read_ne_badTag (r : Reader) : r.read ≠ .error .badTag := by
  rw [Reader.read]
  apply bind_ne_badTag _ _ (readLoop_ne_badTag r _ _)
  intro slots
  cases h : slots[0]? with
  | none => simp
  | some o => cases o <;> simp

theorem kindOfNat_ne_badTag (n : Nat) : kindOfNat n ≠ .error .badTag := by
  rcases n with _ | _ | _ | _ | n <;> simp [kindOfNat]

theorem spacingOfNat_ne_badTag (n : Nat) : spacingOfNat n ≠ .error .badTag := by
  rcases n with _ | _ | n <;> simp [spacingOfNat]

theorem deserialize_span_ne_badTag (L : Nat) (m : SpanMap) (o : Nat) :
    m.deserialize_span L o ≠ .error .badTag := by
  unfold SpanMap.deserialize_span
  split
  · simp
  · split <;> simp

theorem subtreeRead_ne_badTag (L : Nat) (ws : List Nat) (m : SpanMap) :
    SubtreeRepr.read L ws m ≠ .error .badTag := by
  unfold SubtreeRepr.read
  split
  · apply bind_ne_badTag _ _ (kindOfNat_ne_badTag _)
    intro k
    apply bind_ne_badTag _ _ (deserialize_span_ne_badTag _ _ _)
    intro os
    simp
  · simp

theorem subtreeReadClose_ne_badTag (L : Nat) (ws : List Nat) (m : SpanMap) :
    SubtreeRepr.read_with_close_span L ws m ≠ .error .badTag := by
  unfold SubtreeRepr.read_with_close_span
  split
  · apply bind_ne_badTag _ _ (kindOfNat_ne_badTag _)
    intro k
    apply bind_ne_badTag _ _ (deserialize_span_ne_badTag _ _ _)
    intro os
    apply bind_ne_badTag _ _ (deserialize_span_ne_badTag _ _ _)
    intro cs
    simp
  · simp

theorem literalRead_ne_badTag (L : Nat) (ws : List Nat) (m : SpanMap) :
    LiteralRepr.read L ws m ≠ .error .badTag := by
  unfold LiteralRepr.read
  split
  · apply bind_ne_badTag _ _ (deserialize_span_ne_badTag _ _ _)
    intro sp
    simp
  · simp

theorem punctRead_ne_badTag (L : Nat) (ws : List Nat) (m : SpanMap) :
    PunctRepr.read L ws m ≠ .error .badTag := by
  unfold PunctRepr.read
  split
  · apply bind_ne_badTag _ _ (spacingOfNat_ne_badTag _)
    intro sp
    apply bind_ne_badTag _ _ (deserialize_span_ne_badTag _ _ _)
    intro s
    simp
  · simp

theorem identRead_ne_badTag (L : Nat) (ws : List Nat) (m : SpanMap) :
    IdentRepr.read L ws m ≠ .error .badTag := by
  unfold IdentRepr.read
  split
  · apply bind_ne_badTag _ _ (deserialize_span_ne_badTag _ _ _)
    intro sp
    simp
  · simp

theorem read_vec_ne_badTag {α : Type} (m : SpanMap) (xs : List Nat)
    (f : List Nat → SpanMap → Except DErr α) (N : Nat)
    (hf : ∀ c, f c m ≠ .error .badTag) :
    read_vec m xs f N ≠ .error .badTag := by
  rw [read_vec]
  apply bind_ne_badTag _ _ (mapM_ne_badTag _ _ fun c _ => hf c)
  intro res
  split <;> simp

/-! ## `read_vec` accepts only lengths that are exact record multiples -/

theorem read_vec_ok_mod {α : Type} (m : SpanMap) (xs : List Nat)
    (f : List Nat → SpanMap → Except DErr α) (N : Nat) (as : List α)
    (h : read_vec m xs f N = .ok as) : xs.length % N = 0 := by
  rw [read_vec] at h
  cases hm : (exactChunks N xs).mapM (fun c => f c m) with
  | error e => rw [hm] at h; simp [Bind.bind, Except.bind] at h
  | ok res =>
      rw [hm] at h
      simp only [Bind.bind, Except.bind] at h
      split at h
      · assumption
      · cases h

/-! ## List helpers -/

theorem getq_append_left {α : Type} {l l' : List α} {i : Nat} (h : i < l.length) :
    (l ++ l')[i]? = l[i]? := by
  rw [List.getElem?_append]
  exact if_pos h

theorem getq_of_prefix {α : Type} {l l' : List α} {i : Nat} {x : α}
    (hp : l <+: l') (h : l[i]? = some x) : l'[i]? = some x := by
  obtain ⟨t, rfl⟩ := hp
  have hlt : i < l.length := (List.getElem?_eq_some.mp h).1
  rw [getq_append_left hlt]
  exact h

theorem setTT_length (l : List SubtreeRepr) (i : Nat) (tt : Nat × Nat) :
    (setTT l i tt).length = l.length := by
  induction l generalizing i with
  | nil => rfl
  | cons r rs ih =>
      cases i with
      | zero => rfl
      | succ n => simp [setTT, ih]

theorem setTT_getq_ne (l : List SubtreeRepr) (i j : Nat) (tt : Nat × Nat)
    (h : i ≠ j) : (setTT l i tt)[j]? = l[j]? := by
  induction l generalizing i j with
  | nil => rfl
  | cons r rs ih =>
      cases i with
      | zero => cases j with
          | zero => exact absurd rfl h
          | succ m => simp [setTT]
      | succ n => cases j with
          | zero => simp [setTT]
          | succ m => simpa [setTT] using ih n m (by omega)

theorem setTT_getq_eq (l : List SubtreeRepr) (i : Nat) (tt : Nat × Nat)
    (r : SubtreeRepr) (h : l[i]? = some r) :
    (setTT l i tt)[i]? = some { r with tt := tt } := by
  induction l generalizing i with
  | nil => simp at h
  | cons r0 rs ih =>
      cases i with
      | zero => simp at h; simp [setTT, h]
      | succ n => simpa [setTT] using ih n (by simpa using h)

/-! ## The intern table -/

/-- The association list pairing each string of `text` (from position `off`)
with its index. -/
def tableOf (off : Nat) : List String → List (String × Nat)
  | [] => []
  | s :: rest => (s, off) :: tableOf (off + 1) rest

theorem tableOf_append (off : Nat) (xs : List String) (s : String) :
    tableOf off (xs ++ [s]) = tableOf off xs ++ [(s, off + xs.length)] := by
  induction xs generalizing off with
  | nil => simp [tableOf]
  | cons x xs ih => simp [tableOf, ih, Nat.add_assoc, Nat.add_comm 1 xs.length]

theorem lookup_tableOf_some (xs : List String) (off : Nat) (s : String)
    (i : Nat) (h : (tableOf off xs).lookup s = some i) :
    ∃ j, j < xs.length ∧ i = off + j ∧ xs[j]? = some s := by
  induction xs generalizing off with
  | nil => simp [tableOf, List.lookup] at h
  | cons x xs ih =>
      rw [tableOf, List.lookup] at h
      by_cases hx : s = x
      · refine ⟨0, by simp, ?_, by simp [hx]⟩
        simp [hx] at h
        omega
      · have hbeq : (s == x) = false := by simp [hx]
        rw [hbeq] at h
        simp only at h
        obtain ⟨j, hj, hi, hget⟩ := ih (off + 1) h
        exact ⟨j + 1, by simp; omega, by omega, by simpa using hget⟩

theorem lookup_tableOf_none (xs : List String) (off : Nat) (s : String)
    (h : (tableOf off xs).lookup s = none) : s ∉ xs := by
  induction xs generalizing off with
  | nil => simp
  | cons x xs ih =>
      rw [tableOf, List.lookup] at h
      by_cases hx : s = x
      · simp [hx] at h
      · have hbeq : (s == x) = false := by simp [hx]
        rw [hbeq] at h
        simp only at h
        simp [hx, ih (off + 1) h]

/-! ## Writer invariant -/

/-- The record pushed by `Writer::enqueue` for subtree `t`. -/
def pendingRepr (t : Subtree) : SubtreeRepr :=
  { openSpan := t.delimiter.openSpan, closeSpan := t.delimiter.closeSpan,
    kind := t.delimiter.kind, tt := (UMAX, UMAX) }

/-- Correctness of one `token_tree` entry `e` for tree child `c` of record
`i`: leaves point at a record carrying the leaf's data, subtree children are
tag-`0` references to a strictly larger index of the discovery list `ts`. -/
def EntryOk (w : Writer) (ts : List Subtree) (i : Nat) :
    TokenTree → Nat → Prop
  | .subtree d cs, e => ∃ m, e = m <<< 2 ∧ i < m ∧ ts[m]? = some ⟨d, cs⟩
  | .leafLiteral s sp, e => ∃ li ti, e = li <<< 2 ||| 1 ∧
      w.literal[li]? = some ⟨sp, ti⟩ ∧ w.text[ti]? = some s
  | .leafPunct ch spc sp, e => ∃ pj, e = pj <<< 2 ||| 2 ∧
      w.punct[pj]? = some ⟨sp, ch, spc⟩
  | .leafIdent s sp, e => ∃ ii ti, e = ii <<< 2 ||| 3 ∧
      w.ident[ii]? = some ⟨sp, ti⟩ ∧ w.text[ti]? = some s

/-- A fully processed subtree record: delimiter fields match, the children
range is valid and each entry is correct for the corresponding child. -/
def RecordOk (w : Writer) (ts : List Subtree) (i : Nat) : Prop :=
  ∃ r t, w.subtree[i]? = some r ∧ ts[i]? = some t ∧
    r.openSpan = t.delimiter.openSpan ∧
    r.closeSpan = t.delimiter.closeSpan ∧
    r.kind = t.delimiter.kind ∧
    r.tt.1 ≤ r.tt.2 ∧ r.tt.2 ≤ w.token_tree.length ∧
    r.tt.2 - r.tt.1 = t.token_trees.length ∧
    (∀ (j : Nat) (c : TokenTree) (e : Nat), t.token_trees[j]? = some c →
      (sliceTT w.token_tree r.tt.1 r.tt.2)[j]? = some e → EntryOk w ts i c e)

/-- A discovered-but-unprocessed subtree record, exactly as `enqueue` pushed
it. -/
def PendingOk (w : Writer) (ts : List Subtree) (i : Nat) : Prop :=
  ∃ t, ts[i]? = some t ∧ w.subtree[i]? = some (pendingRepr t)

/-- The subtree-tagged targets of a list of `token_tree` entries. -/
def subtreeRefs (es : List Nat) : List Nat :=
  es.filterMap fun e => if e &&& 3 = 0 then some (e >>> 2) else none

/-- The subtree-tagged targets of record `i`'s children range. -/
def recordRefs (w : Writer) (i : Nat) : List Nat :=
  match w.subtree[i]? with
  | some r => subtreeRefs (sliceTT w.token_tree r.tt.1 r.tt.2)
  | none => []

/-- All subtree references of the first `c` records, in order. -/
def refsUpTo (w : Writer) (c : Nat) : List Nat :=
  ((List.range c).map (recordRefs w)).flatten

/-- All spans stored in the writer's record lists have width `L`. -/
def WriterSpanWf (L : Nat) (w : Writer) : Prop :=
  (∀ r ∈ w.subtree, r.openSpan.length = L ∧ r.closeSpan.length = L) ∧
  (∀ r ∈ w.literal, r.id.length = L) ∧
  (∀ r ∈ w.punct, r.id.length = L) ∧
  (∀ r ∈ w.ident, r.id.length = L)

/-- All text indices stored in leaf records are valid. -/
def TextIdxOk (w : Writer) : Prop :=
  (∀ r ∈ w.literal, r.text < w.text.length) ∧
  (∀ r ∈ w.ident, r.text < w.text.length)

/-- The drain-loop invariant.  `ts` is the ghost list of discovered subtrees
in discovery (index) order, `c` the number already processed; the queue holds
exactly the pending indices `[c, ts.length)` in order. -/
structure Inv (root : Subtree) (w : Writer) (q : List (Nat × Subtree))
    (ts : List Subtree) (c : Nat) : Prop where
  hlen : w.subtree.length = ts.length
  hcq : c + q.length = ts.length
  hq : q = (List.range' c q.length).zip (ts.drop c)
  hproc : ∀ i, i < c → RecordOk w ts i
  hpend : ∀ i, c ≤ i → i < ts.length → PendingOk w ts i
  hrefs : refsUpTo w c = List.range' 1 (ts.length - 1)
  htable : w.string_table = tableOf 0 w.text
  hnodup : w.text.Nodup
  htext : ∀ s ∈ w.text, ∃ t ∈ ts, s ∈ directLeafTexts t.token_trees
  hreach : ∀ t ∈ ts, Reach root t
  hroot : ts[0]? = some root
  htidx : TextIdxOk w
  hwf : ∀ L, SubWf L root → WriterSpanWf L w

/-! ## The intern step -/

theorem intern_fields (w : Writer) (s : String) :
    (w.intern s).1.subtree = w.subtree ∧ (w.intern s).1.literal = w.literal ∧
    (w.intern s).1.punct = w.punct ∧ (w.intern s).1.ident = w.ident ∧
    (w.intern s).1.token_tree = w.token_tree := by
  rw [Writer.intern]
  cases w.string_table.lookup s <;> simp

theorem intern_spec (w : Writer) (s : String)
    (htable : w.string_table = tableOf 0 w.text) (hnodup : w.text.Nodup) :
    w.text <+: (w.intern s).1.text ∧
    (w.intern s).1.string_table = tableOf 0 (w.intern s).1.text ∧
    (w.intern s).1.text.Nodup ∧
    (w.intern s).1.text[(w.intern s).2]? = some s ∧
    (∀ s' ∈ (w.intern s).1.text, s' ∈ w.text ∨ s' = s) := by
  rw [Writer.intern]
  cases hl : w.string_table.lookup s with
  | some i =>
      obtain ⟨j, hj, hi, hget⟩ := lookup_tableOf_some w.text 0 s i (htable ▸ hl)
      simp only
      refine ⟨List.prefix_rfl, htable, hnodup, ?_, fun s' hs' => Or.inl hs'⟩
      simpa [hi] using hget
  | none =>
      have hnotin : s ∉ w.text := lookup_tableOf_none w.text 0 s (htable ▸ hl)
      simp only
      refine ⟨List.prefix_append _ _, ?_, ?_, ?_, ?_⟩
      · rw [htable, tableOf_append]
        simp
      · simp [List.nodup_append, hnodup, hnotin]
      · rw [List.getElem?_append_right (by omega)]
        simp
      · intro s' hs'
        rcases List.mem_append.mp hs' with h | h
        · exact Or.inl h
        · exact Or.inr (by simpa using h)

/-! ## Specification of the children loop -/

/-- Entry correctness relative to the pre-state `w0` (for index arithmetic of
fresh subtree children) and post-state `w'` (for leaf record positions). -/
def ChildEntryOk (w0 w' : Writer) (items : List (Nat × Subtree)) :
    TokenTree → Nat → Prop
  | .subtree d cs, e => ∃ k, items[k]? = some (w0.subtree.length + k, ⟨d, cs⟩) ∧
      e = (w0.subtree.length + k) <<< 2
  | .leafLiteral s sp, e => ∃ li ti, e = li <<< 2 ||| 1 ∧
      w'.literal[li]? = some ⟨sp, ti⟩ ∧ w'.text[ti]? = some s
  | .leafPunct ch spc sp, e => ∃ pj, e = pj <<< 2 ||| 2 ∧
      w'.punct[pj]? = some ⟨sp, ch, spc⟩
  | .leafIdent s sp, e => ∃ ii ti, e = ii <<< 2 ||| 3 ∧
      w'.ident[ii]? = some ⟨sp, ti⟩ ∧ w'.text[ti]? = some s

/-- Everything the children loop guarantees, relating the state `w0` at loop
entry to the state `w'` at loop exit; `items` are the enqueued work pairs and
`entries` the block appended to `token_tree`. -/
structure WCSpec (w0 : Writer) (cs : List TokenTree) (w' : Writer)
    (items : List (Nat × Subtree)) (entries : List Nat) : Prop where
  hsub : w'.subtree = w0.subtree ++ items.map (fun p => pendingRepr p.2)
  hidx : items.map Prod.fst = List.range' w0.subtree.length items.length
  hsnd : items.map Prod.snd = subtreeChildren cs
  htok : w'.token_tree = w0.token_tree ++ entries
  hlen : entries.length = cs.length
  hent : ∀ (j : Nat) (c : TokenTree) (e : Nat), cs[j]? = some c →
      entries[j]? = some e → ChildEntryOk w0 w' items c e
  hrefs : subtreeRefs entries = items.map Prod.fst
  hlit : w0.literal <+: w'.literal
  hpun : w0.punct <+: w'.punct
  hide : w0.ident <+: w'.ident
  htxt : w0.text <+: w'.text
  htable : w'.string_table = tableOf 0 w'.text
  hnodup : w'.text.Nodup
  hnew : ∀ s ∈ w'.text, s ∈ w0.text ∨ s ∈ directLeafTexts cs
  hlitnew : ∀ r ∈ w'.literal, r ∈ w0.literal ∨
      ∃ s sp, TokenTree.leafLiteral s sp ∈ cs ∧ r.id = sp ∧ r.text < w'.text.length
  hpunnew : ∀ r ∈ w'.punct, r ∈ w0.punct ∨
      ∃ ch spc sp, TokenTree.leafPunct ch spc sp ∈ cs ∧ r.id = sp
  hidenew : ∀ r ∈ w'.ident, r ∈ w0.ident ∨
      ∃ s sp, TokenTree.leafIdent s sp ∈ cs ∧ r.id = sp ∧ r.text < w'.text.length

theorem range'_append_one (s m n : Nat) :
    List.range' s m ++ List.range' (s + m) n = List.range' s (m + n) := by
  have h := List.range'_append s m n 1
  simp only [Nat.one_mul, Nat.mul_one] at h
  rw [h, Nat.add_comm m n]

theorem subtreeChildren_cons (c : TokenTree) (cs : List TokenTree) :
    subtreeChildren (c :: cs) = subtreeChildren [c] ++ subtreeChildren cs := by
  cases c <;> simp [subtreeChildren]

theorem directLeafTexts_cons (c : TokenTree) (cs : List TokenTree) :
    directLeafTexts (c :: cs) = directLeafTexts [c] ++ directLeafTexts cs := by
  cases c <;> simp [directLeafTexts]

theorem writeChild_subtree (w : Writer) (d : Delimiter) (ts : List TokenTree) :
    w.writeChild (.subtree d ts) =
      ({ w with subtree := w.subtree ++ [pendingRepr ⟨d, ts⟩] },
        w.subtree.length <<< 2, [(w.subtree.length, ⟨d, ts⟩)]) := by
  simp [Writer.writeChild, Writer.enqueue, pendingRepr]

theorem writeChild_literal (w : Writer) (s : String) (sp : Span) :
    w.writeChild (.leafLiteral s sp) =
      ({ (w.intern s).1 with
          literal := (w.intern s).1.literal ++ [⟨sp, (w.intern s).2⟩] },
        w.literal.length <<< 2 ||| 1, []) := by
  simp [Writer.writeChild]

theorem writeChild_punct (w : Writer) (ch : Nat) (spc : Spacing) (sp : Span) :
    w.writeChild (.leafPunct ch spc sp) =
      ({ w with punct := w.punct ++ [⟨sp, ch, spc⟩] },
        w.punct.length <<< 2 ||| 2, []) := by
  simp [Writer.writeChild]

theorem writeChild_ident (w : Writer) (s : String) (sp : Span) :
    w.writeChild (.leafIdent s sp) =
      ({ (w.intern s).1 with
          ident := (w.intern s).1.ident ++ [⟨sp, (w.intern s).2⟩] },
        w.ident.length <<< 2 ||| 3, []) := by
  simp [Writer.writeChild]

theorem writeChildren_cons (w : Writer) (c : TokenTree) (cs : List TokenTree) :
    w.writeChildren (c :: cs) =
      (({ (w.writeChild c).1 with
          token_tree := (w.writeChild c).1.token_tree ++ [(w.writeChild c).2.1]
        }.writeChildren cs).1,
       (w.writeChild c).2.2 ++
        ({ (w.writeChild c).1 with
           token_tree := (w.writeChild c).1.token_tree ++ [(w.writeChild c).2.1]
         }.writeChildren cs).2) := rfl

/-- Lift entry correctness of the head child from the post-head state to the
final state. -/
theorem childEntryOk_lift_head {w u w1 w' : Writer} {c : TokenTree} {e : Nat}
    {items0 items2 : List (Nat × Subtree)}
    (hlit : u.literal = w1.literal) (hpun : u.punct = w1.punct)
    (hide : u.ident = w1.ident) (htxt : u.text = w1.text)
    (hlit2 : w1.literal <+: w'.literal) (hpun2 : w1.punct <+: w'.punct)
    (hide2 : w1.ident <+: w'.ident) (htxt2 : w1.text <+: w'.text)
    (h : ChildEntryOk w u items0 c e) :
    ChildEntryOk w w' (items0 ++ items2) c e := by
  cases c with
  | subtree d ts =>
      obtain ⟨k, hk, he⟩ := h
      have hklt : k < items0.length := (List.getElem?_eq_some.mp hk).1
      exact ⟨k, by rw [getq_append_left hklt]; exact hk, he⟩
  | leafLiteral s sp =>
      obtain ⟨li, ti, he, hrec, htx⟩ := h
      exact ⟨li, ti, he, getq_of_prefix hlit2 (hlit ▸ hrec),
        getq_of_prefix htxt2 (htxt ▸ htx)⟩
  | leafPunct ch spc sp =>
      obtain ⟨pj, he, hrec⟩ := h
      exact ⟨pj, he, getq_of_prefix hpun2 (hpun ▸ hrec)⟩
  | leafIdent s sp =>
      obtain ⟨ii, ti, he, hrec, htx⟩ := h
      exact ⟨ii, ti, he, getq_of_prefix hide2 (hide ▸ hrec),
        getq_of_prefix htxt2 (htxt ▸ htx)⟩

/-- Lift entry correctness of a tail child across the head's item block. -/
theorem childEntryOk_lift_tail {w w1 w' : Writer} {c : TokenTree} {e : Nat}
    {items0 items2 : List (Nat × Subtree)}
    (hsublen : w1.subtree.length = w.subtree.length + items0.length)
    (h : ChildEntryOk w1 w' items2 c e) :
    ChildEntryOk w w' (items0 ++ items2) c e := by
  cases c with
  | subtree d ts =>
      obtain ⟨k, hk, he⟩ := h
      refine ⟨items0.length + k, ?_, ?_⟩
      · rw [List.getElem?_append_right (by omega)]
        simpa [hsublen, Nat.add_assoc] using hk
      · rw [he, hsublen]
        ring_nf
  | leafLiteral s sp => exact h
  | leafPunct ch spc sp => exact h
  | leafIdent s sp => exact h

/-- Combine the head child's effect with the loop specification of the
tail.  `u` is the state after the head child's records, `w1` additionally
has the head entry appended to `token_tree`. -/
theorem WCSpec.consStep {w u w1 w' : Writer} {c : TokenTree}
    {cs : List TokenTree} {items0 items2 : List (Nat × Subtree)} {e0 : Nat}
    {entries2 : List Nat}
    (hHsub : u.subtree = w.subtree ++ items0.map (fun p => pendingRepr p.2))
    (hHidx : items0.map Prod.fst = List.range' w.subtree.length items0.length)
    (hHsnd : items0.map Prod.snd = subtreeChildren [c])
    (hHlit : w.literal <+: u.literal)
    (hHpun : w.punct <+: u.punct)
    (hHide : w.ident <+: u.ident)
    (hHtxt : w.text <+: u.text)
    (hHnew : ∀ s ∈ u.text, s ∈ w.text ∨ s ∈ directLeafTexts [c])
    (hHent : ChildEntryOk w u items0 c e0)
    (hHlitnew : ∀ r ∈ u.literal, r ∈ w.literal ∨
        ∃ s sp, TokenTree.leafLiteral s sp ∈ [c] ∧ r.id = sp ∧
          r.text < u.text.length)
    (hHpunnew : ∀ r ∈ u.punct, r ∈ w.punct ∨
        ∃ ch spc sp, TokenTree.leafPunct ch spc sp ∈ [c] ∧ r.id = sp)
    (hHidenew : ∀ r ∈ u.ident, r ∈ w.ident ∨
        ∃ s sp, TokenTree.leafIdent s sp ∈ [c] ∧ r.id = sp ∧
          r.text < u.text.length)
    (hw1sub : w1.subtree = u.subtree)
    (hw1lit : w1.literal = u.literal) (hw1pun : w1.punct = u.punct)
    (hw1ide : w1.ident = u.ident) (hw1txt : w1.text = u.text)
    (hw1tok : w1.token_tree = u.token_tree ++ [e0])
    (hHtok : u.token_tree = w.token_tree)
    (S2 : WCSpec w1 cs w' items2 entries2) :
    WCSpec w (c :: cs) w' (items0 ++ items2) (e0 :: entries2) := by
  have hk : u.subtree.length = w.subtree.length + items0.length := by
    rw [hHsub]; simp
  have hsublen : w1.subtree.length = w.subtree.length + items0.length := by
    rw [hw1sub, hk]
  have htxtle : u.text.length ≤ w'.text.length :=
    List.IsPrefix.length_le (hw1txt ▸ S2.htxt)
  refine
    { hsub := ?_, hidx := ?_, hsnd := ?_, htok := ?_, hlen := ?_, hent := ?_,
      hrefs := ?_, hlit := ?_, hpun := ?_, hide := ?_, htxt := ?_,
      htable := ?_, hnodup := ?_, hnew := ?_, hlitnew := ?_, hpunnew := ?_,
      hidenew := ?_ }
  · rw [S2.hsub, hw1sub, hHsub, List.map_append, List.append_assoc]
  · rw [List.map_append, hHidx, S2.hidx, hsublen, range'_append_one]
    simp
  · rw [List.map_append, hHsnd, S2.hsnd]
    cases c <;> simp [subtreeChildren]
  · rw [S2.htok, hw1tok, hHtok, List.append_assoc]
    rfl
  · simp [S2.hlen]
  · intro j c' e hc he
    cases j with
    | zero =>
        simp only [List.getElem?_cons_zero, Option.some.injEq] at hc he
        subst hc; subst he
        exact childEntryOk_lift_head hw1lit.symm hw1pun.symm hw1ide.symm
          hw1txt.symm S2.hlit S2.hpun S2.hide S2.htxt hHent
    | succ j =>
        simp only [List.getElem?_cons_succ] at hc he
        exact childEntryOk_lift_tail hsublen (S2.hent j c' e hc he)
  · rw [List.map_append]
    cases c with
    | subtree d ts =>
        obtain ⟨k, hkk, he0⟩ := hHent
        have h1 : items0.length = 1 := by
          have := congrArg List.length hHsnd
          simpa [subtreeChildren] using this
        have hk0 : k = 0 := by
          have := (List.getElem?_eq_some.mp hkk).1
          omega
        subst hk0
        rw [he0, subtreeRefs, List.filterMap_cons]
        simp only [shl2_and3, if_pos rfl, shl2_shr2]
        have : items0.map Prod.fst = [w.subtree.length] := by
          rw [hHidx, h1]
          simp [List.range'_succ]
        rw [this, ← subtreeRefs, S2.hrefs]
        simp
    | leafLiteral s sp =>
        obtain ⟨li, ti, he0, _, _⟩ := hHent
        have h0 : items0 = [] := by
          have := hHsnd
          simp [subtreeChildren, List.map_eq_nil_iff] at this
          exact this
        subst h0
        rw [he0, subtreeRefs, List.filterMap_cons]
        rw [tag_of_shl_or li 1 (by omega)]
        simp only [if_neg (by omega : ¬(1 : Nat) = 0)]
        rw [← subtreeRefs, S2.hrefs]
        simp
    | leafPunct ch spc sp =>
        obtain ⟨pj, he0, _⟩ := hHent
        have h0 : items0 = [] := by
          have := hHsnd
          simp [subtreeChildren, List.map_eq_nil_iff] at this
          exact this
        subst h0
        rw [he0, subtreeRefs, List.filterMap_cons]
        rw [tag_of_shl_or pj 2 (by omega)]
        simp only [if_neg (by omega : ¬(2 : Nat) = 0)]
        rw [← subtreeRefs, S2.hrefs]
        simp
    | leafIdent s sp =>
        obtain ⟨ii, ti, he0, _, _⟩ := hHent
        have h0 : items0 = [] := by
          have := hHsnd
          simp [subtreeChildren, List.map_eq_nil_iff] at this
          exact this
        subst h0
        rw [he0, subtreeRefs, List.filterMap_cons]
        rw [tag_of_shl_or ii 3 (by omega)]
        simp only [if_neg (by omega : ¬(3 : Nat) = 0)]
        rw [← subtreeRefs, S2.hrefs]
        simp
  · exact hHlit.trans (hw1lit ▸ S2.hlit)
  · exact hHpun.trans (hw1pun ▸ S2.hpun)
  · exact hHide.trans (hw1ide ▸ S2.hide)
  · exact hHtxt.trans (hw1txt ▸ S2.htxt)
  · exact S2.htable
  · exact S2.hnodup
  · intro s hs
    rcases S2.hnew s hs with h | h
    · rcases hHnew s (hw1txt ▸ h) with h' | h'
      · exact Or.inl h'
      · exact Or.inr (by rw [directLeafTexts_cons]; exact List.mem_append_left _ h')
    · exact Or.inr (by rw [directLeafTexts_cons]; exact List.mem_append_right _ h)
  · intro r hr
    rcases S2.hlitnew r hr with h | h
    · rcases hHlitnew r (hw1lit ▸ h) with h' | ⟨s, sp, hm, hid, hlt⟩
      · exact Or.inl h'
      · refine Or.inr ⟨s, sp, ?_, hid, by omega⟩
        simp only [List.mem_singleton] at hm
        simp [hm]
    · obtain ⟨s, sp, hm, hid, hlt⟩ := h
      exact Or.inr ⟨s, sp, List.mem_cons_of_mem _ hm, hid, hlt⟩
  · intro r hr
    rcases S2.hpunnew r hr with h | h
    · rcases hHpunnew r (hw1pun ▸ h) with h' | ⟨ch, spc, sp, hm, hid⟩
      · exact Or.inl h'
      · refine Or.inr ⟨ch, spc, sp, ?_, hid⟩
        simp only [List.mem_singleton] at hm
        simp [hm]
    · obtain ⟨ch, spc, sp, hm, hid⟩ := h
      exact Or.inr ⟨ch, spc, sp, List.mem_cons_of_mem _ hm, hid⟩
  · intro r hr
    rcases S2.hidenew r hr with h | h
    · rcases hHidenew r (hw1ide ▸ h) with h' | ⟨s, sp, hm, hid, hlt⟩
      · exact Or.inl h'
      · refine Or.inr ⟨s, sp, ?_, hid, by omega⟩
        simp only [List.mem_singleton] at hm
        simp [hm]
    · obtain ⟨s, sp, hm, hid, hlt⟩ := h
      exact Or.inr ⟨s, sp, List.mem_cons_of_mem _ hm, hid, hlt⟩

theorem writeChildren_spec (cs : List TokenTree) : ∀ (w : Writer),
    w.string_table = tableOf 0 w.text → w.text.Nodup →
    ∃ entries, WCSpec w cs (w.writeChildren cs).1 (w.writeChildren cs).2 entries := by
  induction cs with
  | nil =>
      intro w ht hn
      refine ⟨[], ?_⟩
      exact
        { hsub := by simp [Writer.writeChildren]
          hidx := by simp [Writer.writeChildren]
          hsnd := by simp [Writer.writeChildren, subtreeChildren]
          htok := by simp [Writer.writeChildren]
          hlen := by simp [Writer.writeChildren]
          hent := by intro j c e hc he; simp at hc
          hrefs := by simp [Writer.writeChildren, subtreeRefs]
          hlit := by simp [Writer.writeChildren]
          hpun := by simp [Writer.writeChildren]
          hide := by simp [Writer.writeChildren]
          htxt := by simp [Writer.writeChildren]
          htable := ht
          hnodup := hn
          hnew := fun s hs => Or.inl hs
          hlitnew := fun r hr => Or.inl hr
          hpunnew := fun r hr => Or.inl hr
          hidenew := fun r hr => Or.inl hr }
  | cons c cs ih =>
      intro w ht hn
      rw [writeChildren_cons]
      cases c with
      | subtree d ts =>
          rw [writeChild_subtree]
          simp only
          obtain ⟨entries2, S2⟩ := ih { w with
            subtree := w.subtree ++ [pendingRepr ⟨d, ts⟩],
            token_tree := w.token_tree ++ [w.subtree.length <<< 2] } ht hn
          refine ⟨w.subtree.length <<< 2 :: entries2, ?_⟩
          refine WCSpec.consStep (u := { w with
              subtree := w.subtree ++ [pendingRepr ⟨d, ts⟩] })
            ?_ ?_ ?_ ?_ ?_ ?_ ?_ ?_ ?_ ?_ ?_ ?_ ?_ ?_ ?_ ?_ ?_ ?_ ?_ S2
          · simp
          · simp [List.range'_one]
          · simp [subtreeChildren]
          · exact List.prefix_rfl
          · exact List.prefix_rfl
          · exact List.prefix_rfl
          · exact List.prefix_rfl
          · exact fun s hs => Or.inl hs
          · exact ⟨0, by simp, by simp⟩
          · exact fun r hr => Or.inl hr
          · exact fun r hr => Or.inl hr
          · exact fun r hr => Or.inl hr
          · rfl
          · rfl
          · rfl
          · rfl
          · rfl
          · rfl
          · rfl
      | leafLiteral s sp =>
          rw [writeChild_literal]
          simp only
          obtain ⟨hif1, hif2, hif3, hif4, hif5⟩ := intern_fields w s
          obtain ⟨his1, his2, his3, his4, his5⟩ := intern_spec w s ht hn
          obtain ⟨entries2, S2⟩ := ih { (w.intern s).1 with
            literal := (w.intern s).1.literal ++ [⟨sp, (w.intern s).2⟩],
            token_tree := (w.intern s).1.token_tree ++ [w.literal.length <<< 2 ||| 1] }
            his2 his3
          refine ⟨(w.literal.length <<< 2 ||| 1) :: entries2, ?_⟩
          refine WCSpec.consStep (u := { (w.intern s).1 with
              literal := (w.intern s).1.literal ++ [⟨sp, (w.intern s).2⟩] })
            ?_ ?_ ?_ ?_ ?_ ?_ ?_ ?_ ?_ ?_ ?_ ?_ ?_ ?_ ?_ ?_ ?_ ?_ ?_ S2
          · simpa using hif1
          · simp [List.range'_one]
          · simp [subtreeChildren]
          · rw [hif2]; exact List.prefix_append _ _
          · simp [hif3]
          · simp [hif4]
          · exact his1
          · intro s' hs'
            rcases his5 s' hs' with h | h
            · exact Or.inl h
            · exact Or.inr (by simp [directLeafTexts, h])
          · refine ⟨w.literal.length, (w.intern s).2, rfl, ?_, his4⟩
            rw [hif2, List.getElem?_append_right (by omega)]
            simp
          · intro r hr
            simp only [List.mem_append, List.mem_singleton] at hr
            rcases hr with h | h
            · exact Or.inl (hif2 ▸ h)
            · refine Or.inr ⟨s, sp, by simp, by simp [h], ?_⟩
              have := (List.getElem?_eq_some.mp his4).1
              simpa [h] using this
          · intro r hr
            exact Or.inl (hif3 ▸ hr)
          · intro r hr
            exact Or.inl (hif4 ▸ hr)
          · rfl
          · rfl
          · rfl
          · rfl
          · rfl
          · rfl
          · exact hif5
      | leafPunct ch spc sp =>
          rw [writeChild_punct]
          simp only
          obtain ⟨entries2, S2⟩ := ih { w with
            punct := w.punct ++ [⟨sp, ch, spc⟩],
            token_tree := w.token_tree ++ [w.punct.length <<< 2 ||| 2] } ht hn
          refine ⟨(w.punct.length <<< 2 ||| 2) :: entries2, ?_⟩
          refine WCSpec.consStep (u := { w with
              punct := w.punct ++ [⟨sp, ch, spc⟩] })
            ?_ ?_ ?_ ?_ ?_ ?_ ?_ ?_ ?_ ?_ ?_ ?_ ?_ ?_ ?_ ?_ ?_ ?_ ?_ S2
          · simp
          · simp [List.range'_one]
          · simp [subtreeChildren]
          · exact List.prefix_rfl
          · exact List.prefix_append _ _
          · exact List.prefix_rfl
          · exact List.prefix_rfl
          · exact fun s hs => Or.inl hs
          · refine ⟨w.punct.length, rfl, ?_⟩
            rw [List.getElem?_append_right (by omega)]
            simp
          · exact fun r hr => Or.inl hr
          · intro r hr
            simp only [List.mem_append, List.mem_singleton] at hr
            rcases hr with h | h
            · exact Or.inl h
            · exact Or.inr ⟨ch, spc, sp, by simp, by simp [h]⟩
          · exact fun r hr => Or.inl hr
          · rfl
          · rfl
          · rfl
          · rfl
          · rfl
          · rfl
          · rfl
      | leafIdent s sp =>
          rw [writeChild_ident]
          simp only
          obtain ⟨hif1, hif2, hif3, hif4, hif5⟩ := intern_fields w s
          obtain ⟨his1, his2, his3, his4, his5⟩ := intern_spec w s ht hn
          obtain ⟨entries2, S2⟩ := ih { (w.intern s).1 with
            ident := (w.intern s).1.ident ++ [⟨sp, (w.intern s).2⟩],
            token_tree := (w.intern s).1.token_tree ++ [w.ident.length <<< 2 ||| 3] }
            his2 his3
          refine ⟨(w.ident.length <<< 2 ||| 3) :: entries2, ?_⟩
          refine WCSpec.consStep (u := { (w.intern s).1 with
              ident := (w.intern s).1.ident ++ [⟨sp, (w.intern s).2⟩] })
            ?_ ?_ ?_ ?_ ?_ ?_ ?_ ?_ ?_ ?_ ?_ ?_ ?_ ?_ ?_ ?_ ?_ ?_ ?_ S2
          · simpa using hif1
          · simp [List.range'_one]
          · simp [subtreeChildren]
          · simp [hif2]
          · simp [hif3]
          · rw [hif4]; exact List.prefix_append _ _
          · exact his1
          · intro s' hs'
            rcases his5 s' hs' with h | h
            · exact Or.inl h
            · exact Or.inr (by simp [directLeafTexts, h])
          · refine ⟨w.ident.length, (w.intern s).2, rfl, ?_, his4⟩
            rw [hif4, List.getElem?_append_right (by omega)]
            simp
          · intro r hr
            exact Or.inl (hif2 ▸ hr)
          · intro r hr
            exact Or.inl (hif3 ▸ hr)
          · intro r hr
            simp only [List.mem_append, List.mem_singleton] at hr
            rcases hr with h | h
            · exact Or.inl (hif4 ▸ h)
            · refine Or.inr ⟨s, sp, by simp, by simp [h], ?_⟩
              have := (List.getElem?_eq_some.mp his4).1
              simpa [h] using this
          · rfl
          · rfl
          · rfl
          · rfl
          · rfl
          · rfl
          · exact hif5

/-! ## Helpers for the drain invariant -/

theorem zip_fst_snd {α β : Type} (l : List (α × β)) :
    (l.map Prod.fst).zip (l.map Prod.snd) = l := by
  induction l with
  | nil => rfl
  | cons p l ih => simp [ih]

theorem getq_mem {α : Type} {l : List α} {i : Nat} {x : α}
    (h : l[i]? = some x) : x ∈ l := by
  obtain ⟨hlt, he⟩ := List.getElem?_eq_some.mp h
  exact he ▸ l.getElem_mem hlt

theorem sliceTT_append_of_le (a b : List Nat) (lo hi : Nat)
    (h : hi ≤ a.length) : sliceTT (a ++ b) lo hi = sliceTT a lo hi := by
  unfold sliceTT
  by_cases hlo : lo ≤ a.length
  · rw [List.drop_append_of_le_length hlo, List.take_append_of_le_length (by simp; omega)]
  · have h1 : hi - lo = 0 := by omega
    simp [h1]

theorem sliceTT_append_self (a b : List Nat) :
    sliceTT (a ++ b) a.length (a.length + b.length) = b := by
  unfold sliceTT
  rw [List.drop_left]
  simp

theorem setTT_mem (l : List SubtreeRepr) (i : Nat) (tt : Nat × Nat)
    (r : SubtreeRepr) (h : r ∈ setTT l i tt) :
    ∃ r0 ∈ l, r.openSpan = r0.openSpan ∧ r.closeSpan = r0.closeSpan := by
  induction l generalizing i with
  | nil => simp [setTT] at h
  | cons r0 rs ih =>
      cases i with
      | zero =>
          rcases List.mem_cons.mp h with h1 | h1
          · exact ⟨r0, List.mem_cons_self .., by simp [h1]⟩
          · exact ⟨r, List.mem_cons_of_mem _ h1, rfl, rfl⟩
      | succ n =>
          rcases List.mem_cons.mp h with h1 | h1
          · exact ⟨r0, List.mem_cons_self .., by simp [h1]⟩
          · obtain ⟨r1, hr1, he⟩ := ih n h1
            exact ⟨r1, List.mem_cons_of_mem _ hr1, he⟩

/-! ## Well-formedness propagation -/

theorem wf_children {L : Nat} {t c : Subtree} (hwf : SubWf L t)
    (hc : c ∈ subtreeChildren t.token_trees) : SubWf L c := by
  cases hwf with
  | subtree ho hc' hall =>
      obtain ⟨x, hx, he⟩ := List.mem_filterMap.mp hc
      cases x with
      | subtree d ts =>
          simp only [Option.some.injEq] at he
          have := hall _ hx
          cases this with
          | subtree ho2 hc2 hall2 => exact he ▸ TTWf.subtree ho2 hc2 hall2
      | leafLiteral s sp => simp at he
      | leafPunct ch spc sp => simp at he
      | leafIdent s sp => simp at he

theorem reach_wf {L : Nat} {root t : Subtree} (hwf : SubWf L root)
    (hr : Reach root t) : SubWf L t := by
  induction hr with
  | refl => exact hwf
  | step _ hc ih => exact wf_children ih hc

theorem wf_delim {L : Nat} {t : Subtree} (hwf : SubWf L t) :
    t.delimiter.openSpan.length = L ∧ t.delimiter.closeSpan.length = L := by
  cases hwf with
  | subtree ho hc _ => exact ⟨ho, hc⟩

theorem wf_literal_leaf {L : Nat} {t : Subtree} (hwf : SubWf L t)
    {s : String} {sp : Span} (h : TokenTree.leafLiteral s sp ∈ t.token_trees) :
    sp.length = L := by
  cases hwf with
  | subtree _ _ hall => cases hall _ h with | literal hl => exact hl

theorem wf_punct_leaf {L : Nat} {t : Subtree} (hwf : SubWf L t)
    {ch : Nat} {spc : Spacing} {sp : Span}
    (h : TokenTree.leafPunct ch spc sp ∈ t.token_trees) : sp.length = L := by
  cases hwf with
  | subtree _ _ hall => cases hall _ h with | punct hl => exact hl

theorem wf_ident_leaf {L : Nat} {t : Subtree} (hwf : SubWf L t)
    {s : String} {sp : Span} (h : TokenTree.leafIdent s sp ∈ t.token_trees) :
    sp.length = L := by
  cases hwf with
  | subtree _ _ hall => cases hall _ h with | ident hl => exact hl

/-! ## Stability of the processed-record predicates -/

theorem entryOk_mono {w w' : Writer} {ts ts' : List Subtree} {i : Nat}
    {c : TokenTree} {e : Nat}
    (hlit : w.literal <+: w'.literal) (hpun : w.punct <+: w'.punct)
    (hide : w.ident <+: w'.ident) (htxt : w.text <+: w'.text)
    (hts : ts <+: ts') (h : EntryOk w ts i c e) : EntryOk w' ts' i c e := by
  cases c with
  | subtree d cs =>
      obtain ⟨m, he, him, hm⟩ := h
      exact ⟨m, he, him, getq_of_prefix hts hm⟩
  | leafLiteral s sp =>
      obtain ⟨li, ti, he, h1, h2⟩ := h
      exact ⟨li, ti, he, getq_of_prefix hlit h1, getq_of_prefix htxt h2⟩
  | leafPunct ch spc sp =>
      obtain ⟨pj, he, h1⟩ := h
      exact ⟨pj, he, getq_of_prefix hpun h1⟩
  | leafIdent s sp =>
      obtain ⟨ii, ti, he, h1, h2⟩ := h
      exact ⟨ii, ti, he, getq_of_prefix hide h1, getq_of_prefix htxt h2⟩

theorem recordOk_mono {w w' : Writer} {ts ts' : List Subtree} {i : Nat}
    (hsub : w'.subtree[i]? = w.subtree[i]?)
    (htokp : ∃ rest, w'.token_tree = w.token_tree ++ rest)
    (hlit : w.literal <+: w'.literal) (hpun : w.punct <+: w'.punct)
    (hide : w.ident <+: w'.ident) (htxt : w.text <+: w'.text)
    (hts : ts <+: ts') (h : RecordOk w ts i) : RecordOk w' ts' i := by
  obtain ⟨r, t, hr, ht, ho, hc, hk, h12, h2len, hlen, hent⟩ := h
  obtain ⟨rest, hrest⟩ := htokp
  refine ⟨r, t, hsub ▸ hr, getq_of_prefix hts ht, ho, hc, hk, h12, ?_, hlen, ?_⟩
  · rw [hrest]; simp; omega
  · intro j c e hc' he'
    rw [hrest, sliceTT_append_of_le _ _ _ _ h2len] at he'
    exact entryOk_mono hlit hpun hide htxt hts (hent j c e hc' he')

theorem childEntryOk_toEntryOk {w1 w2 : Writer} {ts : List Subtree}
    {items : List (Nat × Subtree)} {c : Nat} {ch : TokenTree} {e : Nat}
    (hlen : w1.subtree.length = ts.length) (hc : c < ts.length)
    (h : ChildEntryOk w1 w2 items ch e) :
    EntryOk w2 (ts ++ items.map Prod.snd) c ch e := by
  cases ch with
  | subtree d cs =>
      obtain ⟨k, hk, he⟩ := h
      refine ⟨ts.length + k, by rw [he, hlen], by omega, ?_⟩
      rw [List.getElem?_append_right (by omega)]
      have : (items.map Prod.snd)[k]? = (items[k]?).map Prod.snd :=
        List.getElem?_map ..
      rw [Nat.add_sub_cancel_left, this, hk]
      rfl
  | leafLiteral s sp => exact h
  | leafPunct ch spc sp => exact h
  | leafIdent s sp => exact h

theorem refsUpTo_succ (w : Writer) (c : Nat) :
    refsUpTo w (c + 1) = refsUpTo w c ++ recordRefs w c := by
  unfold refsUpTo
  rw [List.range_succ]
  simp

theorem refsUpTo_congr {w w' : Writer} {c : Nat}
    (h : ∀ i, i < c → recordRefs w' i = recordRefs w i) :
    refsUpTo w' c = refsUpTo w c := by
  unfold refsUpTo
  congr 1
  apply List.map_congr_left
  intro i hi
  exact h i (List.mem_range.mp hi)

theorem subtreeStep_eq (w : Writer) (idx : Nat) (s : Subtree) :
    w.subtreeStep idx s =
      ({ w with subtree := (setTT w.subtree idx
          (w.token_tree.length, w.token_tree.length + s.token_trees.length))
        }).writeChildren s.token_trees := rfl

/-- One drain iteration preserves the invariant: processing the queue head
`(c, ts[c])` extends the ghost list by the newly discovered subtree children
and advances the processed count. -/
theorem inv_step {root : Subtree} {w : Writer} {idx : Nat} {s : Subtree}
    {rest : List (Nat × Subtree)} {ts : List Subtree} {c : Nat}
    (hinv : Inv root w ((idx, s) :: rest) ts c) :
    ∃ ts2, ts <+: ts2 ∧
      Inv root (w.subtreeStep idx s).1 (rest ++ (w.subtreeStep idx s).2)
        ts2 (c + 1) := by
  have hd : w.subtree.length = ts.length := hinv.hlen
  have hcq := hinv.hcq
  have hclt : c < ts.length := by simp at hcq; omega
  have hrl : rest.length = ts.length - (c + 1) := by simp at hcq; omega
  -- decompose the queue equation to identify the head
  have hq := hinv.hq
  rw [show ((idx, s) :: rest).length = rest.length + 1 by simp,
      List.range'_succ c rest.length 1, List.drop_eq_getElem_cons hclt,
      List.zip_cons_cons] at hq
  obtain ⟨hhead, hrest⟩ := List.cons.injEq .. ▸ hq
  obtain ⟨hidx, hs⟩ := Prod.mk.injEq .. ▸ hhead
  have hidx2 : c = idx := hidx.symm
  subst hidx2
  have hsts : ts[c]? = some s := by
    rw [List.getElem?_eq_getElem hclt, hs]
  -- the writer state after setting the children range of record c
  rw [subtreeStep_eq]
  set flen := w.token_tree.length with hflen
  set nch := s.token_trees.length with hnch
  set w1 : Writer := ({ w with subtree := setTT w.subtree c (flen, flen + nch) })
    with hw1
  have hw1len : w1.subtree.length = ts.length := by
    simp [hw1, setTT_length, hd]
  obtain ⟨entries, S⟩ :=
    writeChildren_spec s.token_trees w1 hinv.htable hinv.hnodup
  set w2 : Writer := (w1.writeChildren s.token_trees).1 with hw2
  set items : List (Nat × Subtree) := (w1.writeChildren s.token_trees).2
    with hitems
  set κ := items.length with hκ
  refine ⟨ts ++ items.map Prod.snd, List.prefix_append _ _, ?_⟩
  have hts2len : (ts ++ items.map Prod.snd).length = ts.length + κ := by simp
  have hpendc : PendingOk w ts c := hinv.hpend c (Nat.le_refl c) hclt
  obtain ⟨t0, ht0, hwc⟩ := hpendc
  have ht0s : s = t0 := by
    rw [hsts] at ht0
    exact Option.some.injEq .. ▸ ht0
  subst ht0s
  -- record c after the step
  have hgetC : w2.subtree[c]? = some
      { openSpan := s.delimiter.openSpan, closeSpan := s.delimiter.closeSpan,
        kind := s.delimiter.kind, tt := (flen, flen + nch) } := by
    rw [S.hsub, getq_append_left (by rw [hw1len]; exact hclt)]
    have := setTT_getq_eq w.subtree c (flen, flen + nch) _ hwc
    simpa [pendingRepr] using this
  -- records below c are untouched
  have hsub_lt : ∀ i, i < c → w2.subtree[i]? = w.subtree[i]? := by
    intro i hi
    rw [S.hsub, getq_append_left (by rw [hw1len]; omega)]
    exact setTT_getq_ne w.subtree c i _ (by omega)
  have hsub_ne : ∀ i, i ≠ c → i < ts.length → w2.subtree[i]? = w.subtree[i]? := by
    intro i hi hilt
    rw [S.hsub, getq_append_left (by rw [hw1len]; omega)]
    exact setTT_getq_ne w.subtree c i _ (Ne.symm hi)
  have htok2 : w2.token_tree = w.token_tree ++ entries := S.htok
  have hlitp : w.literal <+: w2.literal := S.hlit
  have hpunp : w.punct <+: w2.punct := S.hpun
  have hidep : w.ident <+: w2.ident := S.hide
  have htxtp : w.text <+: w2.text := S.htxt
  have htsp : ts <+: ts ++ items.map Prod.snd := List.prefix_append _ _
  have hlenent : entries.length = nch := S.hlen
  have hsliceC : sliceTT w2.token_tree flen (flen + nch) = entries := by
    rw [htok2, hflen, ← hlenent]
    exact sliceTT_append_self _ _
  have hreachS : Reach root s := hinv.hreach s (getq_mem hsts)
  have hidxitems : items.map Prod.fst = List.range' ts.length κ := by
    have := S.hidx
    rwa [hw1len] at this
  refine
    { hlen := ?_, hcq := ?_, hq := ?_, hproc := ?_, hpend := ?_, hrefs := ?_,
      htable := S.htable, hnodup := S.hnodup, htext := ?_, hreach := ?_,
      hroot := ?_, htidx := ?_, hwf := ?_ }
  · rw [S.hsub, hts2len]
    simp [hw1len]
  · rw [hts2len]
    simp at hcq ⊢
    omega
  · have h1 : (rest ++ items).length = rest.length + κ := by simp
    rw [h1, ← range'_append_one (c + 1) rest.length κ,
        List.drop_append_of_le_length (by omega),
        List.zip_append (by simp [List.length_range', hrl])]
    have h2 : c + 1 + rest.length = ts.length := by simp at hcq; omega
    rw [h2, ← hidxitems, zip_fst_snd]
    rw [← hrest]
  · intro i hi
    rcases Nat.lt_or_ge i c with hic | hic
    · exact recordOk_mono (hsub_lt i hic) ⟨entries, htok2⟩ hlitp hpunp hidep
        htxtp htsp (hinv.hproc i hic)
    · have hieq : i = c := by omega
      subst hieq
      refine ⟨_, s, hgetC, getq_of_prefix htsp hsts, rfl, rfl, rfl, ?_, ?_, ?_, ?_⟩
      · simp
      · rw [htok2]
        simp [hlenent]
      · simp [hnch]
      · intro j ch e hcj hej
        simp only at hej
        rw [hsliceC] at hej
        exact childEntryOk_toEntryOk hw1len hclt (S.hent j ch e hcj hej)
  · intro i hi1 hi2
    rw [hts2len] at hi2
    rcases Nat.lt_or_ge i ts.length with hilt | hige
    · obtain ⟨t', ht', hw'⟩ := hinv.hpend i (by omega) hilt
      exact ⟨t', getq_of_prefix htsp ht', (hsub_ne i (by omega) hilt) ▸ hw'⟩
    · set k := i - ts.length with hk
      have hklt : k < κ := by omega
      have hfst : (items.map Prod.fst)[k]? = some (ts.length + k) := by
        rw [hidxitems]
        rw [List.getElem?_eq_getElem (by simp [List.length_range']; omega)]
        simp [List.getElem_range']
      cases hp : items[k]? with
      | none =>
          rw [List.getElem?_map, hp] at hfst
          simp at hfst
      | some p =>
          have hp1 : p.1 = ts.length + k := by
            rw [List.getElem?_map, hp] at hfst
            simpa using hfst
          refine ⟨p.2, ?_, ?_⟩
          · rw [List.getElem?_append_right (by omega), List.getElem?_map, ← hk, hp]
            rfl
          · rw [S.hsub, List.getElem?_append_right (by rw [hw1len]; omega),
                List.getElem?_map, hw1len, ← hk, hp]
            rfl
  · rw [refsUpTo_succ]
    have hcongr : refsUpTo w2 c = refsUpTo w c := by
      apply refsUpTo_congr
      intro i hi
      unfold recordRefs
      rw [hsub_lt i hi]
      obtain ⟨r, t', hr, _, _, _, _, _, h2len, _, _⟩ := hinv.hproc i hi
      rw [hr]
      simp only
      rw [htok2, sliceTT_append_of_le _ _ _ _ h2len]
    have hrefC : recordRefs w2 c = List.range' ts.length κ := by
      unfold recordRefs
      rw [hgetC]
      simp only
      rw [hsliceC, S.hrefs, hidxitems]
    rw [hcongr, hinv.hrefs, hrefC, hts2len]
    have hpos : 0 < ts.length := by
      have h5 := hinv.hroot
      have := (List.getElem?_eq_some.mp h5).1
      omega
    have h3 : ts.length + κ - 1 = (ts.length - 1) + κ := by omega
    have h4 : ts.length = 1 + (ts.length - 1) := by omega
    rw [h3, ← range'_append_one 1 (ts.length - 1) κ, ← h4]
  · intro str hstr
    rcases S.hnew str hstr with h | h
    · obtain ⟨t', ht', hmem⟩ := hinv.htext str h
      exact ⟨t', List.mem_append_left _ ht', hmem⟩
    · exact ⟨s, List.mem_append_left _ (getq_mem hsts), by simpa [hnch] using h⟩
  · intro t' ht'
    rcases List.mem_append.mp ht' with h | h
    · exact hinv.hreach t' h
    · have : t' ∈ subtreeChildren s.token_trees := by
        rw [← S.hsnd]
        exact h
      exact Reach.step hreachS this
  · rw [getq_append_left (by omega)]
    exact hinv.hroot
  · constructor
    · intro r hr
      rcases S.hlitnew r hr with h | ⟨str, sp, _, _, hlt⟩
      · have := hinv.htidx.1 r h
        have hle : w.text.length ≤ w2.text.length := htxtp.length_le
        omega
      · exact hlt
    · intro r hr
      rcases S.hidenew r hr with h | ⟨str, sp, _, _, hlt⟩
      · have := hinv.htidx.2 r h
        have hle : w.text.length ≤ w2.text.length := htxtp.length_le
        omega
      · exact hlt
  · intro L hwfroot
    obtain ⟨hws, hwl, hwp, hwi⟩ := hinv.hwf L hwfroot
    have hwfs : SubWf L s := reach_wf hwfroot hreachS
    refine ⟨?_, ?_, ?_, ?_⟩
    · intro r hr
      rw [S.hsub] at hr
      rcases List.mem_append.mp hr with h | h
      · obtain ⟨r0, hr0, he1, he2⟩ := setTT_mem w.subtree c _ r h
        rw [he1, he2]
        exact hws r0 hr0
      · obtain ⟨p, hp, hpe⟩ := List.mem_map.mp h
        have hmem : p.2 ∈ subtreeChildren s.token_trees := by
          rw [← S.hsnd]
          exact List.mem_map_of_mem _ hp
        have := wf_delim (wf_children hwfs hmem)
        rw [← hpe]
        simpa [pendingRepr] using this
    · intro r hr
      rcases S.hlitnew r hr with h | ⟨str, sp, hmem, hid, _⟩
      · exact hwl r h
      · rw [hid]
        exact wf_literal_leaf hwfs hmem
    · intro r hr
      rcases S.hpunnew r hr with h | ⟨ch, spc, sp, hmem, hid⟩
      · exact hwp r h
      · rw [hid]
        exact wf_punct_leaf hwfs hmem
    · intro r hr
      rcases S.hidenew r hr with h | ⟨str, sp, hmem, hid, _⟩
      · exact hwi r h
      · rw [hid]
        exact wf_ident_leaf hwfs hmem

/-- Draining the queue to completion yields the full invariant at
`c = ts.length`. -/
theorem drain_inv : ∀ (n : Nat) (w : Writer) (q : List (Nat × Subtree))
    (ts : List Subtree) (c : Nat) (root : Subtree),
    queueMeasure q ≤ n → Inv root w q ts c →
    ∃ ts2, ts <+: ts2 ∧ Inv root (w.drain q) [] ts2 ts2.length := by
  intro n
  induction n with
  | zero =>
      intro w q ts c root hm hinv
      cases q with
      | nil =>
          rw [Writer.drain]
          have hc : c = ts.length := by
            have := hinv.hcq
            simpa using this
          exact ⟨ts, List.prefix_rfl, hc ▸ hinv⟩
      | cons p rest =>
          exfalso
          rw [queueMeasure_cons] at hm
          have : 0 < p.2.size := by
            unfold Subtree.size
            omega
          omega
  | succ n ih =>
      intro w q ts c root hm hinv
      cases q with
      | nil =>
          rw [Writer.drain]
          have hc : c = ts.length := by
            have := hinv.hcq
            simpa using this
          exact ⟨ts, List.prefix_rfl, hc ▸ hinv⟩
      | cons p rest =>
          obtain ⟨idx, s⟩ := p
          rw [Writer.drain]
          obtain ⟨ts2, hpre, hinv2⟩ := inv_step hinv
          have hstep := queueMeasure_subtreeStep w idx s
          have hm2 : queueMeasure (rest ++ (w.subtreeStep idx s).2) ≤ n := by
            rw [queueMeasure_append]
            rw [queueMeasure_cons] at hm
            have hm' : s.size + queueMeasure rest ≤ n + 1 := hm
            omega
          obtain ⟨ts3, hpre2, hfin⟩ := ih _ _ _ _ root hm2 hinv2
          exact ⟨ts3, hpre.trans hpre2, hfin⟩

/-- The full invariant for `Writer::write`. -/
theorem write_inv (root : Subtree) :
    ∃ ts, Inv root (Writer.write root) [] ts ts.length := by
  have hinit : Inv root (Writer.init.enqueue root).1 [(0, root)] [root] 0 :=
    { hlen := by simp [Writer.init, Writer.enqueue]
      hcq := by simp
      hq := by simp [List.range'_one]
      hproc := by intro i hi; omega
      hpend := by
        intro i h0 hi
        simp only [List.length_singleton] at hi
        have hieq : i = 0 := by omega
        subst hieq
        exact ⟨root, rfl, by simp [Writer.init, Writer.enqueue, pendingRepr]⟩
      hrefs := by simp [refsUpTo]
      htable := rfl
      hnodup := List.nodup_nil
      htext := by intro s hs; simp [Writer.init, Writer.enqueue] at hs
      hreach := by
        intro t ht
        simp only [List.mem_singleton] at ht
        exact ht ▸ Reach.refl
      hroot := rfl
      htidx := by
        constructor <;> intro r hr <;>
          simp [Writer.init, Writer.enqueue] at hr
      hwf := by
        intro L hwf
        refine ⟨?_, ?_, ?_, ?_⟩
        · intro r hr
          simp only [Writer.init, Writer.enqueue, List.nil_append,
            List.mem_singleton] at hr
          obtain ⟨ho, hc⟩ := wf_delim hwf
          simp [hr, ho, hc]
        · intro r hr
          simp [Writer.init, Writer.enqueue] at hr
        · intro r hr
          simp [Writer.init, Writer.enqueue] at hr
        · intro r hr
          simp [Writer.init, Writer.enqueue] at hr }
  obtain ⟨ts, _, hfin⟩ := drain_inv (queueMeasure [(0, root)])
    (Writer.init.enqueue root).1 [(0, root)] [root] 0 root (Nat.le_refl _) hinit
  exact ⟨ts, hfin⟩

/-! ## Consequences of the final writer invariant -/

theorem take_range' (s n m : Nat) :
    (List.range' s n).take m = List.range' s (min m n) := by
  induction n generalizing s m with
  | zero => simp
  | succ n ih =>
      cases m with
      | zero => simp
      | succ m =>
          rw [List.range'_succ]
          simp [ih, Nat.succ_min_succ, List.range'_succ]

theorem getq_exists_of_mem {α : Type} {l : List α} {x : α} (h : x ∈ l) :
    ∃ i : Nat, l[i]? = some x := by
  obtain ⟨i, hi, he⟩ := List.mem_iff_getElem.mp h
  exact ⟨i, by rw [List.getElem?_eq_getElem hi, he]⟩

theorem range_prefix_of_le {k d : Nat} (h : k ≤ d) :
    List.range k <+: List.range d := by
  rw [List.range_eq_range' k, List.range_eq_range' d]
  refine ⟨List.range' k (d - k), ?_⟩
  have := range'_append_one 0 k (d - k)
  simp only [Nat.zero_add] at this
  rw [this]
  congr 1
  omega

theorem flatten_map_prefix {α β : Type} (f : α → List β) {l1 l2 : List α}
    (h : l1 <+: l2) : (l1.map f).flatten <+: (l2.map f).flatten := by
  obtain ⟨t, rfl⟩ := h
  rw [List.map_append, List.flatten_append]
  exact List.prefix_append _ _

theorem sliceTT_length (tt : List Nat) (lo hi : Nat) (h1 : lo ≤ hi)
    (h2 : hi ≤ tt.length) : (sliceTT tt lo hi).length = hi - lo := by
  unfold sliceTT
  simp only [List.length_take, List.length_drop]
  omega

/-- A subtree-tagged entry of a processed record targets a strictly larger
discovered index. -/
theorem recordOk_entry_tag0 {w : Writer} {ts : List Subtree} {i : Nat}
    {r : SubtreeRepr} (hr : w.subtree[i]? = some r) (hrec : RecordOk w ts i)
    {j e : Nat} (he : (sliceTT w.token_tree r.tt.1 r.tt.2)[j]? = some e)
    (htag : e &&& 3 = 0) :
    ∃ d0 cs0 m, e = m <<< 2 ∧ ts[m]? = some ⟨d0, cs0⟩ ∧ i < m := by
  obtain ⟨r', t, hr', ht, _, _, _, h12, h2len, hlen, hent⟩ := hrec
  rw [hr] at hr'
  have hrr : r = r' := by simpa using hr'
  subst hrr
  have hj : j < (sliceTT w.token_tree r.tt.1 r.tt.2).length :=
    (List.getElem?_eq_some.mp he).1
  rw [sliceTT_length _ _ _ h12 h2len] at hj
  have hjc : j < t.token_trees.length := by omega
  have hc : t.token_trees[j]? = some t.token_trees[j] :=
    List.getElem?_eq_getElem hjc
  have hok := hent j _ e hc he
  cases hch : t.token_trees[j] with
  | subtree d0 cs0 =>
      rw [hch] at hok
      obtain ⟨m, hme, him, hm⟩ := hok
      exact ⟨d0, cs0, m, hme, hm, him⟩
  | leafLiteral s sp =>
      rw [hch] at hok
      obtain ⟨li, ti, hme, _, _⟩ := hok
      rw [hme, tag_of_shl_or li 1 (by omega)] at htag
      omega
  | leafPunct ch spc sp =>
      rw [hch] at hok
      obtain ⟨pj, hme, _⟩ := hok
      rw [hme, tag_of_shl_or pj 2 (by omega)] at htag
      omega
  | leafIdent s sp =>
      rw [hch] at hok
      obtain ⟨ii, ti, hme, _, _⟩ := hok
      rw [hme, tag_of_shl_or ii 3 (by omega)] at htag
      omega

/-- Every reference of a processed record is strictly larger than the record
index. -/
theorem recordRefs_gt {w : Writer} {ts : List Subtree} {i : Nat}
    (hrec : RecordOk w ts i) : ∀ e ∈ recordRefs w i, i < e := by
  intro e hee
  unfold recordRefs at hee
  cases hr : w.subtree[i]? with
  | none => rw [hr] at hee; simp at hee
  | some r =>
      rw [hr] at hee
      simp only [subtreeRefs] at hee
      obtain ⟨e0, he0, htag⟩ := List.mem_filterMap.mp hee
      obtain ⟨j, hj⟩ := getq_exists_of_mem he0
      by_cases h0 : e0 &&& 3 = 0
      · obtain ⟨d0, cs0, m, hme, hm, him⟩ := recordOk_entry_tag0 hr hrec hj h0
        rw [if_pos h0] at htag
        have : e = e0 >>> 2 := by
          have h2 : e0 >>> 2 = e := by simpa using htag
          omega
        rw [this, hme, shl2_shr2]
        exact him
      · rw [if_neg h0] at htag
        simp at htag

/-! ## Leaf texts of a tree -/

theorem sizeList_mem {c : TokenTree} {cs : List TokenTree} (h : c ∈ cs) :
    c.size ≤ sizeList cs := by
  induction cs with
  | nil => simp at h
  | cons x xs ih =>
      rcases List.mem_cons.mp h with h1 | h1
      · subst h1
        rw [sizeList]
        omega
      · have := ih h1
        rw [sizeList]
        omega

theorem size_subtreeChild {c : Subtree} {cs : List TokenTree}
    (h : c ∈ subtreeChildren cs) : c.size ≤ sizeList cs := by
  obtain ⟨x, hx, he⟩ := List.mem_filterMap.mp h
  cases x with
  | subtree d ts =>
      simp only [Option.some.injEq] at he
      have h1 := sizeList_mem hx
      rw [TokenTree.size] at h1
      rw [← he]
      unfold Subtree.size
      simpa using h1
  | leafLiteral s sp => simp at he
  | leafPunct ch spc sp => simp at he
  | leafIdent s sp => simp at he

/-- All literal/ident texts of the tree, at any depth. -/
def Subtree.leafTexts (t : Subtree) : List String :=
  directLeafTexts t.token_trees ++
    ((subtreeChildren t.token_trees).attach.map
      (fun p => Subtree.leafTexts p.1)).flatten
termination_by t.size
decreasing_by
  have := size_subtreeChild p.2
  unfold Subtree.size at this ⊢
  omega

theorem leafTexts_eq (t : Subtree) :
    t.leafTexts = directLeafTexts t.token_trees ++
      ((subtreeChildren t.token_trees).attach.map
        (fun p => Subtree.leafTexts p.1)).flatten := by
  conv_lhs => unfold Subtree.leafTexts

theorem mem_leafTexts (t : Subtree) (s0 : String) :
    s0 ∈ t.leafTexts ↔ s0 ∈ directLeafTexts t.token_trees ∨
      ∃ c ∈ subtreeChildren t.token_trees, s0 ∈ c.leafTexts := by
  rw [leafTexts_eq t]
  simp [List.mem_flatten, List.mem_map, List.mem_attach]

theorem leafTexts_of_reach {root t : Subtree} (h : Reach root t) :
    ∀ s0 ∈ t.leafTexts, s0 ∈ root.leafTexts := by
  induction h with
  | refl => exact fun s0 hs => hs
  | step hr hc ih =>
      intro s0 hs
      exact ih _ ((mem_leafTexts _ _).mpr (Or.inr ⟨_, hc, hs⟩))

theorem leafTexts_to_reach : ∀ (n : Nat) (root t : Subtree), t.size ≤ n →
    Reach root t → ∀ s0 ∈ t.leafTexts,
      ∃ t', Reach root t' ∧ s0 ∈ directLeafTexts t'.token_trees := by
  intro n
  induction n with
  | zero =>
      intro root t ht
      unfold Subtree.size at ht
      omega
  | succ n ih =>
      intro root t ht hr s0 hs
      rcases (mem_leafTexts t s0).mp hs with h | ⟨c, hc, hsc⟩
      · exact ⟨t, hr, h⟩
      · refine ih root c ?_ (Reach.step hr hc) s0 hsc
        have := size_subtreeChild hc
        unfold Subtree.size at ht
        omega

/-- Every subtree reachable from the root has been discovered by the
flattening. -/
theorem reach_mem_ts {root : Subtree} {w : Writer} {ts : List Subtree}
    (hfin : Inv root w [] ts ts.length) :
    ∀ t, Reach root t → t ∈ ts := by
  intro t hrch
  induction hrch with
  | refl => exact getq_mem hfin.hroot
  | @step t0 c hr hc ih =>
      obtain ⟨i, hi⟩ := getq_exists_of_mem ih
      have hilt : i < ts.length := (List.getElem?_eq_some.mp hi).1
      obtain ⟨r, t', hr', ht', _, _, _, h12, h2len, hlenq, hent⟩ :=
        hfin.hproc i hilt
      have htt : t' = t0 := by
        rw [hi] at ht'
        simpa using ht'.symm
      subst htt
      obtain ⟨x, hx, he⟩ := List.mem_filterMap.mp hc
      cases x with
      | subtree d cs =>
          simp only [Option.some.injEq] at he
          obtain ⟨j, hj⟩ := getq_exists_of_mem hx
          have hjlt : j < t'.token_trees.length :=
            (List.getElem?_eq_some.mp hj).1
          have hse : ∃ e, (sliceTT w.token_tree r.tt.1 r.tt.2)[j]? = some e := by
            rw [List.getElem?_eq_getElem
              (by rw [sliceTT_length _ _ _ h12 h2len]; omega)]
            exact ⟨_, rfl⟩
          obtain ⟨e, hse⟩ := hse
          have hok := hent j _ e hj hse
          obtain ⟨m, hme, him, hm⟩ := hok
          rw [he] at hm
          exact getq_mem hm
      | leafLiteral s sp => simp at he
      | leafPunct ch spc sp => simp at he
      | leafIdent s sp => simp at he

/-! ## Span serialization: bookkeeping and read-back -/

theorem serialize_span_fields (L : Nat) (m : SpanMap) (sp : Span) :
    (m.serialize_span L sp).1.serialize = m.serialize ∧
    (m.serialize_span L sp).1.span_size = m.span_size ∧
    m.spans <+: (m.serialize_span L sp).1.spans := by
  unfold SpanMap.serialize_span
  split
  · exact ⟨rfl, rfl, List.prefix_rfl⟩
  · exact ⟨rfl, rfl, List.prefix_append _ _⟩

theorem serialize_span_reads (L : Nat) (m : SpanMap) (sp : Span)
    (hwf : sp.length = L) :
    ∀ m2 : SpanMap, (m.serialize_span L sp).1.spans <+: m2.spans →
      m2.deserialize_span L (m.serialize_span L sp).2 = .ok sp := by
  intro m2 hpre
  unfold SpanMap.serialize_span at hpre ⊢
  unfold SpanMap.deserialize_span
  by_cases hL : L = 1
  · rw [if_pos hL, if_pos hL]
    simp only
    cases sp with
    | nil => rw [hL] at hwf; simp at hwf
    | cons a l =>
        cases l with
        | nil => rfl
        | cons b l2 => rw [hL] at hwf; simp at hwf
  · rw [if_neg hL] at hpre ⊢
    rw [if_neg hL]
    simp only at hpre
    obtain ⟨t, ht⟩ := hpre
    rw [← ht]
    rw [if_pos (by simp [← hwf])]
    rw [List.append_assoc, List.drop_left]
    rw [← hwf, List.take_left]

theorem exactChunks_nil (N : Nat) : exactChunks N [] = [] := by
  rw [exactChunks, dif_neg (by rintro ⟨h1, h2⟩; simp at h2; omega)]

theorem exactChunks_cons (N : Nat) (ws rest : List Nat) (hN : 0 < N)
    (hw : ws.length = N) :
    exactChunks N (ws ++ rest) = ws :: exactChunks N rest := by
  rw [exactChunks, dif_pos ⟨hN, by simp [hw]⟩]
  congr 1
  · rw [← hw, List.take_left]
  · congr 1
    rw [← hw, List.drop_left]

theorem read_vec_nil {α : Type} (m : SpanMap)
    (f : List Nat → SpanMap → Except DErr α) (N : Nat) :
    read_vec m [] f N = .ok ([] : List α) := by
  rw [read_vec, exactChunks_nil]
  simp [List.mapM, List.mapM.loop, Bind.bind, Except.bind, pure, Except.pure]

theorem write_vec_reads {α : Type} (N : Nat) (hN : 0 < N)
    (fw : α → SpanMap → SpanMap × List Nat)
    (fr : List Nat → SpanMap → Except DErr α) (P : α → Prop)
    (hrec : ∀ x m, P x →
      (fw x m).2.length = N ∧
      (fw x m).1.serialize = m.serialize ∧
      (fw x m).1.span_size = m.span_size ∧
      m.spans <+: (fw x m).1.spans ∧
      (∀ m2 : SpanMap, (fw x m).1.spans <+: m2.spans →
        fr (fw x m).2 m2 = .ok x)) :
    ∀ (xs : List α) (m : SpanMap), (∀ x ∈ xs, P x) →
      (write_vec m xs fw).1.serialize = m.serialize ∧
      (write_vec m xs fw).1.span_size = m.span_size ∧
      m.spans <+: (write_vec m xs fw).1.spans ∧
      ∀ m2 : SpanMap, (write_vec m xs fw).1.spans <+: m2.spans →
        read_vec m2 (write_vec m xs fw).2 fr N = .ok xs := by
  intro xs
  induction xs with
  | nil =>
      intro m hP
      exact ⟨rfl, rfl, List.prefix_rfl, fun m2 _ => read_vec_nil m2 fr N⟩
  | cons x rest ih =>
      intro m hP
      obtain ⟨hlen, hser, hsize, hpre, hread⟩ := hrec x m (hP x (by simp))
      obtain ⟨ihser, ihsize, ihpre, ihread⟩ :=
        ih (fw x m).1 (fun y hy => hP y (by simp [hy]))
      have hw1 : (write_vec m (x :: rest) fw).1 =
          (write_vec (fw x m).1 rest fw).1 := rfl
      have hw2 : (write_vec m (x :: rest) fw).2 =
          (fw x m).2 ++ (write_vec (fw x m).1 rest fw).2 := rfl
      refine ⟨?_, ?_, ?_, ?_⟩
      · rw [hw1, ihser, hser]
      · rw [hw1, ihsize, hsize]
      · rw [hw1]
        exact hpre.trans ihpre
      · intro m2 hm2
        rw [hw1] at hm2
        have hx : fr (fw x m).2 m2 = .ok x := hread m2 (ihpre.trans hm2)
        have hrest := ihread m2 hm2
        rw [read_vec] at hrest ⊢
        rw [hw2, exactChunks_cons N _ _ hN hlen, List.mapM_cons]
        cases hm : ((exactChunks N (write_vec (fw x m).1 rest fw).2).mapM
            (fun c => fr c m2)) with
        | error e =>
            rw [hm] at hrest
            simp [Bind.bind, Except.bind] at hrest
        | ok res =>
            rw [hm] at hrest
            simp only [Bind.bind, Except.bind] at hrest
            split at hrest
            · rename_i hmod
              simp only [Except.ok.injEq] at hrest
              subst hrest
              simp only [Bind.bind, Except.bind, hx, hm, pure, Except.pure]
              rw [if_pos (by simp [hlen]; omega)]
            · cases hrest

theorem kindOfNat_kindToNat (k : DelimiterKind) :
    kindOfNat (kindToNat k) = .ok k := by
  cases k <;> rfl

theorem spacingOfNat_spacingToNat (s : Spacing) :
    spacingOfNat (spacingToNat s) = .ok s := by
  cases s <;> rfl

theorem subtree_close_rec (L : Nat) : ∀ (r : SubtreeRepr) (m : SpanMap),
    (r.openSpan.length = L ∧ r.closeSpan.length = L) →
    (SubtreeRepr.write_with_close_span L r m).2.length = 5 ∧
    (SubtreeRepr.write_with_close_span L r m).1.serialize = m.serialize ∧
    (SubtreeRepr.write_with_close_span L r m).1.span_size = m.span_size ∧
    m.spans <+: (SubtreeRepr.write_with_close_span L r m).1.spans ∧
    (∀ m2 : SpanMap,
      (SubtreeRepr.write_with_close_span L r m).1.spans <+: m2.spans →
      SubtreeRepr.read_with_close_span L
        (SubtreeRepr.write_with_close_span L r m).2 m2 = .ok r) := by
  intro r m hwf
  obtain ⟨ho, hc⟩ := hwf
  obtain ⟨hs1, hz1, hp1⟩ := serialize_span_fields L m r.openSpan
  obtain ⟨hs2, hz2, hp2⟩ :=
    serialize_span_fields L (m.serialize_span L r.openSpan).1 r.closeSpan
  refine ⟨rfl, hs2.trans hs1, hz2.trans hz1, hp1.trans hp2, ?_⟩
  intro m2 hm2
  unfold SubtreeRepr.write_with_close_span at hm2 ⊢
  unfold SubtreeRepr.read_with_close_span
  simp only
  rw [kindOfNat_kindToNat]
  rw [serialize_span_reads L m r.openSpan ho m2 (hp2.trans hm2)]
  rw [serialize_span_reads L _ r.closeSpan hc m2 hm2]
  rfl

theorem literal_rec (L : Nat) : ∀ (r : LiteralRepr) (m : SpanMap),
    r.id.length = L →
    (LiteralRepr.write L r m).2.length = 2 ∧
    (LiteralRepr.write L r m).1.serialize = m.serialize ∧
    (LiteralRepr.write L r m).1.span_size = m.span_size ∧
    m.spans <+: (LiteralRepr.write L r m).1.spans ∧
    (∀ m2 : SpanMap, (LiteralRepr.write L r m).1.spans <+: m2.spans →
      LiteralRepr.read L (LiteralRepr.write L r m).2 m2 = .ok r) := by
  intro r m hwf
  obtain ⟨hs1, hz1, hp1⟩ := serialize_span_fields L m r.id
  refine ⟨rfl, hs1, hz1, hp1, ?_⟩
  intro m2 hm2
  unfold LiteralRepr.write at hm2 ⊢
  unfold LiteralRepr.read
  simp only
  rw [serialize_span_reads L m r.id hwf m2 hm2]
  rfl

theorem punct_rec (L : Nat) : ∀ (r : PunctRepr) (m : SpanMap),
    r.id.length = L →
    (PunctRepr.write L r m).2.length = 3 ∧
    (PunctRepr.write L r m).1.serialize = m.serialize ∧
    (PunctRepr.write L r m).1.span_size = m.span_size ∧
    m.spans <+: (PunctRepr.write L r m).1.spans ∧
    (∀ m2 : SpanMap, (PunctRepr.write L r m).1.spans <+: m2.spans →
      PunctRepr.read L (PunctRepr.write L r m).2 m2 = .ok r) := by
  intro r m hwf
  obtain ⟨hs1, hz1, hp1⟩ := serialize_span_fields L m r.id
  refine ⟨rfl, hs1, hz1, hp1, ?_⟩
  intro m2 hm2
  unfold PunctRepr.write at hm2 ⊢
  unfold PunctRepr.read
  simp only
  rw [spacingOfNat_spacingToNat]
  rw [serialize_span_reads L m r.id hwf m2 hm2]
  rfl

theorem ident_rec (L : Nat) : ∀ (r : IdentRepr) (m : SpanMap),
    r.id.length = L →
    (IdentRepr.write L r m).2.length = 2 ∧
    (IdentRepr.write L r m).1.serialize = m.serialize ∧
    (IdentRepr.write L r m).1.span_size = m.span_size ∧
    m.spans <+: (IdentRepr.write L r m).1.spans ∧
    (∀ m2 : SpanMap, (IdentRepr.write L r m).1.spans <+: m2.spans →
      IdentRepr.read L (IdentRepr.write L r m).2 m2 = .ok r) := by
  intro r m hwf
  obtain ⟨hs1, hz1, hp1⟩ := serialize_span_fields L m r.id
  refine ⟨rfl, hs1, hz1, hp1, ?_⟩
  intro m2 hm2
  unfold IdentRepr.write at hm2 ⊢
  unfold IdentRepr.read
  simp only
  rw [serialize_span_reads L m r.id hwf m2 hm2]
  rfl

/-- Encoding at a close-span version succeeds and each serialized array reads
back to the writer's records against the final span map. -/
theorem new_reads (L VSS ECS version : Nat) (root : Subtree)
    (hwf : SubWf L root) (hcompat : L = 1 ∨ VSS ≤ version)
    (hclose : ECS ≤ version) :
    ∃ ft, FlatTree.new L VSS ECS root version = some ft ∧
      ft.token_tree = (Writer.write root).token_tree ∧
      ft.text = (Writer.write root).text ∧
      ft.span_map.span_size = L ∧
      read_vec ft.span_map ft.subtree (SubtreeRepr.read_with_close_span L) 5 =
        .ok (Writer.write root).subtree ∧
      read_vec ft.span_map ft.literal (LiteralRepr.read L) 2 =
        .ok (Writer.write root).literal ∧
      read_vec ft.span_map ft.punct (PunctRepr.read L) 3 =
        .ok (Writer.write root).punct ∧
      read_vec ft.span_map ft.ident (IdentRepr.read L) 2 =
        .ok (Writer.write root).ident := by
  obtain ⟨ts, hfin⟩ := write_inv root
  obtain ⟨hwsub, hwlit, hwpun, hwide⟩ := hfin.hwf L hwf
  set w := Writer.write root with hw
  set m0 : SpanMap := ({ serialize := decide (VSS ≤ version) && !(L == 1), span_size := L, spans := [] })
    with hm0
  obtain ⟨W1s, W1z, W1p, W1r⟩ := write_vec_reads 5 (by omega)
    (SubtreeRepr.write_with_close_span L) (SubtreeRepr.read_with_close_span L)
    (fun r => r.openSpan.length = L ∧ r.closeSpan.length = L)
    (subtree_close_rec L) w.subtree m0 hwsub
  set p1 := write_vec m0 w.subtree (SubtreeRepr.write_with_close_span L)
    with hp1
  obtain ⟨W2s, W2z, W2p, W2r⟩ := write_vec_reads 2 (by omega)
    (LiteralRepr.write L) (LiteralRepr.read L) (fun r => r.id.length = L)
    (literal_rec L) w.literal p1.1 hwlit
  set p2 := write_vec p1.1 w.literal (LiteralRepr.write L) with hp2
  obtain ⟨W3s, W3z, W3p, W3r⟩ := write_vec_reads 3 (by omega)
    (PunctRepr.write L) (PunctRepr.read L) (fun r => r.id.length = L)
    (punct_rec L) w.punct p2.1 hwpun
  set p3 := write_vec p2.1 w.punct (PunctRepr.write L) with hp3
  obtain ⟨W4s, W4z, W4p, W4r⟩ := write_vec_reads 2 (by omega)
    (IdentRepr.write L) (IdentRepr.read L) (fun r => r.id.length = L)
    (ident_rec L) w.ident p3.1 hwide
  set p4 := write_vec p3.1 w.ident (IdentRepr.write L) with hp4
  have hnew : FlatTree.new L VSS ECS root version = some
      { subtree := p1.2, literal := p2.2, punct := p3.2, ident := p4.2,
        token_tree := w.token_tree, text := w.text, span_map := p4.1 } := by
    simp only [FlatTree.new]
    rw [if_pos hcompat, if_pos hclose]
  refine ⟨_, hnew, rfl, rfl, ?_, ?_, ?_, ?_, ?_⟩
  · rw [W4z, W3z, W2z, W1z]
  · exact W1r p4.1 (W2p.trans (W3p.trans W4p))
  · exact W2r p4.1 (W3p.trans W4p)
  · exact W3r p4.1 W4p
  · exact W4r p4.1 List.prefix_rfl

/-! ## Reader correctness on encoder output -/

/-- Number of subtree references made by the first `k` records. -/
def rcOf (w : Writer) (k : Nat) : Nat := (refsUpTo w k).length

/-- The reader state over a writer's arrays. -/
def readerOf (w : Writer) : Reader :=
  { subtree := w.subtree, literal := w.literal, punct := w.punct,
    ident := w.ident, token_tree := w.token_tree, text := w.text }

theorem rcOf_zero (w : Writer) : rcOf w 0 = 0 := by
  simp [rcOf, refsUpTo]

theorem rcOf_succ (w : Writer) (k : Nat) :
    rcOf w (k + 1) = rcOf w k + (recordRefs w k).length := by
  unfold rcOf
  rw [refsUpTo_succ]
  simp

theorem refs_run {root : Subtree} {w : Writer} {ts : List Subtree}
    (hfin : Inv root w [] ts ts.length) {k : Nat} (hk : k ≤ ts.length) :
    refsUpTo w k = List.range' 1 (rcOf w k) ∧ rcOf w k ≤ ts.length - 1 := by
  have hpre : refsUpTo w k <+: refsUpTo w ts.length :=
    flatten_map_prefix (recordRefs w) (range_prefix_of_le hk)
  rw [hfin.hrefs] at hpre
  have hle : rcOf w k ≤ ts.length - 1 := by
    have := hpre.length_le
    simpa [rcOf] using this
  obtain ⟨t, ht⟩ := hpre
  have htake : refsUpTo w k = (List.range' 1 (ts.length - 1)).take (rcOf w k) := by
    rw [← ht, List.take_left']
    rfl
  rw [htake, take_range']
  exact ⟨by rw [Nat.min_eq_left hle], hle⟩

theorem recordRefs_run {root : Subtree} {w : Writer} {ts : List Subtree}
    (hfin : Inv root w [] ts ts.length) {k : Nat} (hk : k < ts.length) :
    recordRefs w k = List.range' (1 + rcOf w k) (rcOf w (k + 1) - rcOf w k) ∧
    rcOf w k ≤ rcOf w (k + 1) := by
  have h1 := (refs_run hfin (Nat.le_of_lt hk)).1
  have h2 := (refs_run hfin hk).1
  have hmono : rcOf w k ≤ rcOf w (k + 1) := by
    rw [rcOf_succ]
    omega
  have hsplit : List.range' 1 (rcOf w (k + 1)) =
      List.range' 1 (rcOf w k) ++
        List.range' (1 + rcOf w k) (rcOf w (k + 1) - rcOf w k) := by
    rw [range'_append_one]
    congr 1
    omega
  have hsucc := refsUpTo_succ w k
  rw [h1, h2] at hsucc
  rw [hsplit] at hsucc
  exact ⟨(List.append_cancel_left hsucc).symm, hmono⟩

theorem rc_ge {root : Subtree} {w : Writer} {ts : List Subtree}
    (hfin : Inv root w [] ts ts.length) {k : Nat} (hk : k < ts.length) :
    k ≤ rcOf w k := by
  rcases Nat.lt_or_ge (rcOf w k) (ts.length - 1) with hlt | hge
  · -- the value 1 + rcOf w k appears in some record with index ≥ k
    set m := 1 + rcOf w k with hm
    have hmem : m ∈ refsUpTo w ts.length := by
      rw [hfin.hrefs]
      apply List.mem_range'_1.mpr
      omega
    have hsplitr : List.range ts.length =
        List.range k ++ List.range' k (ts.length - k) := by
      rw [List.range_eq_range' k, List.range_eq_range' ts.length]
      have := range'_append_one 0 k (ts.length - k)
      simp only [Nat.zero_add] at this
      rw [this]
      congr 1
      omega
    have hdecomp : refsUpTo w ts.length =
        refsUpTo w k ++ ((List.range' k (ts.length - k)).map
          (recordRefs w)).flatten := by
      unfold refsUpTo
      rw [hsplitr, List.map_append, List.flatten_append]
    rw [hdecomp] at hmem
    rcases List.mem_append.mp hmem with h | h
    · exfalso
      rw [(refs_run hfin (Nat.le_of_lt hk)).1] at h
      have := List.mem_range'_1.mp h
      omega
    · obtain ⟨l, hl, hml⟩ := List.mem_flatten.mp h
      obtain ⟨i, hi, hli⟩ := List.mem_map.mp hl
      have hibnd := List.mem_range'_1.mp hi
      have hgt : i < m := by
        have hilt : i < ts.length := by omega
        exact recordRefs_gt (hfin.hproc i hilt) m (hli ▸ hml)
      omega
  · omega

theorem subtreeRefs_cons_tag0 {e : Nat} (es : List Nat) (h : e &&& 3 = 0) :
    subtreeRefs (e :: es) = (e >>> 2) :: subtreeRefs es := by
  unfold subtreeRefs
  rw [List.filterMap_cons]
  simp [h]

theorem subtreeRefs_cons_tagn {e : Nat} (es : List Nat) (h : ¬e &&& 3 = 0) :
    subtreeRefs (e :: es) = subtreeRefs es := by
  unfold subtreeRefs
  rw [List.filterMap_cons]
  simp [h]

theorem readEntry_tag0 (r : Reader) (slots : List (Option Subtree)) (m : Nat)
    (st : Subtree) (hs : slots[m]? = some (some st)) :
    r.readEntry slots (m <<< 2) =
      .ok (.subtree st.delimiter st.token_trees, slots.set m none) := by
  simp only [Reader.readEntry, shl2_and3, shl2_shr2, takeSlot, hs]
  simp [Bind.bind, Except.bind]

theorem readEntry_tag1 (r : Reader) (slots : List (Option Subtree)) (li : Nat)
    (rep : LiteralRepr) (s : String) (h1 : r.literal[li]? = some rep)
    (h2 : r.text[rep.text]? = some s) :
    r.readEntry slots (li <<< 2 ||| 1) = .ok (.leafLiteral s rep.id, slots) := by
  simp only [Reader.readEntry, tag_of_shl_or li 1 (by omega),
    idx_of_shl_or li 1 (by omega), h1, h2]

theorem readEntry_tag2 (r : Reader) (slots : List (Option Subtree)) (pj : Nat)
    (rep : PunctRepr) (h1 : r.punct[pj]? = some rep) :
    r.readEntry slots (pj <<< 2 ||| 2) =
      .ok (.leafPunct rep.char rep.spacing rep.id, slots) := by
  simp only [Reader.readEntry, tag_of_shl_or pj 2 (by omega),
    idx_of_shl_or pj 2 (by omega), h1]

theorem readEntry_tag3 (r : Reader) (slots : List (Option Subtree)) (ii : Nat)
    (rep : IdentRepr) (s : String) (h1 : r.ident[ii]? = some rep)
    (h2 : r.text[rep.text]? = some s) :
    r.readEntry slots (ii <<< 2 ||| 3) = .ok (.leafIdent s rep.id, slots) := by
  simp only [Reader.readEntry, tag_of_shl_or ii 3 (by omega),
    idx_of_shl_or ii 3 (by omega), h1, h2]

/-- The children loop reconstructs exactly the original child list and
empties exactly the slots referenced by the entry block. -/
theorem readChildren_ok {w : Writer} {ts : List Subtree} {i : Nat} :
    ∀ (es : List Nat) (cs : List TokenTree) (slots : List (Option Subtree)),
      es.length = cs.length →
      (∀ (j : Nat) (c : TokenTree) (e : Nat), cs[j]? = some c →
        es[j]? = some e → EntryOk w ts i c e) →
      (subtreeRefs es).Nodup →
      (∀ m ∈ subtreeRefs es, m < ts.length ∧ slots[m]? = some ts[m]?) →
      slots.length = ts.length →
      ∃ slots2, (readerOf w).readChildren es slots = .ok (cs, slots2) ∧
        slots2.length = ts.length ∧
        (∀ m, m < ts.length →
          slots2[m]? = if m ∈ subtreeRefs es then some none else slots[m]?) := by
  intro es
  induction es with
  | nil =>
      intro cs slots hlen hent hnd hpres hsl
      have hcs : cs = [] := by
        cases cs with
        | nil => rfl
        | cons c cs => simp at hlen
      subst hcs
      refine ⟨slots, by simp [Reader.readChildren], hsl, ?_⟩
      intro m hm
      rw [if_neg (by simp [subtreeRefs])]
  | cons e es ih =>
      intro cs slots hlen hent hnd hpres hsl
      cases cs with
      | nil => simp at hlen
      | cons c cs =>
          have hok0 : EntryOk w ts i c e := hent 0 c e (by simp) (by simp)
          have hlen' : es.length = cs.length := by simpa using hlen
          have hent' : ∀ (j : Nat) (c' : TokenTree) (e' : Nat),
              cs[j]? = some c' → es[j]? = some e' → EntryOk w ts i c' e' := by
            intro j c' e' hc' he'
            exact hent (j + 1) c' e' (by simpa using hc') (by simpa using he')
          cases c with
          | subtree d0 cs0 =>
              obtain ⟨m, he, him, hm⟩ := hok0
              subst he
              have htag : (m <<< 2) &&& 3 = 0 := shl2_and3 m
              rw [subtreeRefs_cons_tag0 es htag, shl2_shr2] at hnd hpres
              have hmem : m ∈ m :: subtreeRefs es := List.mem_cons_self ..
              obtain ⟨hmlt, hslot⟩ := hpres m hmem
              rw [hm] at hslot
              have hread := readEntry_tag0 (readerOf w) slots m ⟨d0, cs0⟩ hslot
              have hnd' : (subtreeRefs es).Nodup := (List.nodup_cons.mp hnd).2
              have hnm : m ∉ subtreeRefs es := (List.nodup_cons.mp hnd).1
              have hpres' : ∀ m' ∈ subtreeRefs es,
                  m' < ts.length ∧ (slots.set m none)[m']? = some ts[m']? := by
                intro m' hm'
                obtain ⟨h1, h2⟩ := hpres m' (List.mem_cons_of_mem _ hm')
                refine ⟨h1, ?_⟩
                rw [List.getElem?_set_ne (by intro hh; exact hnm (hh ▸ hm'))]
                exact h2
              obtain ⟨slots2, hrc, hsl2, hs2⟩ := ih cs (slots.set m none)
                hlen' hent' hnd' hpres' (by simp [hsl])
              refine ⟨slots2, ?_, hsl2, ?_⟩
              · rw [Reader.readChildren]
                rw [hread]
                simp only [Bind.bind, Except.bind, hrc]
              · intro m' hm'
                rw [subtreeRefs_cons_tag0 es htag, shl2_shr2, hs2 m' hm']
                by_cases hcase : m' ∈ subtreeRefs es
                · rw [if_pos hcase, if_pos (List.mem_cons_of_mem _ hcase)]
                · by_cases hm'm : m' = m
                  · subst hm'm
                    rw [if_neg hcase, if_pos (List.mem_cons_self ..)]
                    rw [List.getElem?_set_eq_of_lt]
                    omega
                  · rw [if_neg hcase, if_neg (by simp [hm'm, hcase])]
                    rw [List.getElem?_set_ne (fun hh => hm'm hh.symm)]
          | leafLiteral s0 sp =>
              obtain ⟨li, ti, he, h1, h2⟩ := hok0
              subst he
              have htag : ¬(li <<< 2 ||| 1) &&& 3 = 0 := by
                rw [tag_of_shl_or li 1 (by omega)]
                omega
              rw [subtreeRefs_cons_tagn es htag] at hnd hpres
              have hrep : (readerOf w).literal[li]? = some ⟨sp, ti⟩ := h1
              have htxt : (readerOf w).text[(⟨sp, ti⟩ : LiteralRepr).text]? =
                  some s0 := h2
              have hread := readEntry_tag1 (readerOf w) slots li ⟨sp, ti⟩ s0
                hrep htxt
              obtain ⟨slots2, hrc, hsl2, hs2⟩ := ih cs slots hlen' hent' hnd
                hpres hsl
              refine ⟨slots2, ?_, hsl2, ?_⟩
              · rw [Reader.readChildren, hread]
                simp only [Bind.bind, Except.bind, hrc]
              · intro m' hm'
                rw [hs2 m' hm', subtreeRefs_cons_tagn es htag]
          | leafPunct ch spc sp =>
              obtain ⟨pj, he, h1⟩ := hok0
              subst he
              have htag : ¬(pj <<< 2 ||| 2) &&& 3 = 0 := by
                rw [tag_of_shl_or pj 2 (by omega)]
                omega
              rw [subtreeRefs_cons_tagn es htag] at hnd hpres
              have hread := readEntry_tag2 (readerOf w) slots pj ⟨sp, ch, spc⟩ h1
              obtain ⟨slots2, hrc, hsl2, hs2⟩ := ih cs slots hlen' hent' hnd
                hpres hsl
              refine ⟨slots2, ?_, hsl2, ?_⟩
              · rw [Reader.readChildren, hread]
                simp only [Bind.bind, Except.bind, hrc]
              · intro m' hm'
                rw [hs2 m' hm', subtreeRefs_cons_tagn es htag]
          | leafIdent s0 sp =>
              obtain ⟨ii, ti, he, h1, h2⟩ := hok0
              subst he
              have htag : ¬(ii <<< 2 ||| 3) &&& 3 = 0 := by
                rw [tag_of_shl_or ii 3 (by omega)]
                omega
              rw [subtreeRefs_cons_tagn es htag] at hnd hpres
              have htxt : (readerOf w).text[(⟨sp, ti⟩ : IdentRepr).text]? =
                  some s0 := h2
              have hread := readEntry_tag3 (readerOf w) slots ii ⟨sp, ti⟩ s0
                h1 htxt
              obtain ⟨slots2, hrc, hsl2, hs2⟩ := ih cs slots hlen' hent' hnd
                hpres hsl
              refine ⟨slots2, ?_, hsl2, ?_⟩
              · rw [Reader.readChildren, hread]
                simp only [Bind.bind, Except.bind, hrc]
              · intro m' hm'
                rw [hs2 m' hm', subtreeRefs_cons_tagn es htag]

/-- Downward loop invariant: with slots of not-yet-taken discovered subtrees
for the already processed high indices, the loop finishes with the root in
slot `0`. -/
theorem readLoop_ok {root : Subtree} {w : Writer} {ts : List Subtree}
    (hfin : Inv root w [] ts ts.length) :
    ∀ (k : Nat) (slots : List (Option Subtree)), k ≤ ts.length →
      slots.length = ts.length →
      (∀ m, m < ts.length → slots[m]? =
        some (if k ≤ m ∧ m < 1 + rcOf w k then ts[m]? else none)) →
      ∃ slots2, (readerOf w).readLoop k slots = .ok slots2 ∧
        slots2[0]? = some (some root) := by
  intro k
  induction k with
  | zero =>
      intro slots hk hsl hinv
      refine ⟨slots, by simp [Reader.readLoop], ?_⟩
      have h0 : (0:Nat) < ts.length := by
        by_contra h
        have hz : ts.length = 0 := by omega
        have := hfin.hroot
        rw [List.getElem?_eq_none (by omega)] at this
        exact Option.noConfusion this
      have hiv := hinv 0 h0
      rw [rcOf_zero] at hiv
      rw [hiv, if_pos ⟨Nat.le_refl 0, by omega⟩, hfin.hroot]
  | succ i ih =>
      intro slots hk hsl hinv
      have hilt : i < ts.length := by omega
      obtain ⟨r, t, hr, ht, hopen, hclose, hkind, hle, hhi, hcnt, hent⟩ :=
        hfin.hproc i hilt
      set es := sliceTT w.token_tree r.tt.1 r.tt.2 with hes
      have hrr : recordRefs w i = subtreeRefs es := by
        unfold recordRefs
        rw [hr]
      obtain ⟨hrun0, hmono⟩ := recordRefs_run hfin hilt
      have hrun : subtreeRefs es = List.range' (1 + rcOf w i)
          (rcOf w (i + 1) - rcOf w i) := hrr ▸ hrun0
      have hge : i ≤ rcOf w i := rc_ge hfin hilt
      have hub : rcOf w (i + 1) ≤ ts.length - 1 := (refs_run hfin hk).2
      have heslen : es.length = t.token_trees.length := by
        rw [hes, sliceTT_length w.token_tree r.tt.1 r.tt.2 hle hhi, hcnt]
      have hnd : (subtreeRefs es).Nodup := by
        rw [hrun]
        exact List.nodup_range' _ _
      have hpres : ∀ m ∈ subtreeRefs es,
          m < ts.length ∧ slots[m]? = some ts[m]? := by
        intro m hmem
        rw [hrun] at hmem
        have hb := List.mem_range'_1.mp hmem
        have hmlt : m < ts.length := by omega
        refine ⟨hmlt, ?_⟩
        rw [hinv m hmlt, if_pos ⟨by omega, by omega⟩]
      obtain ⟨slots2, hrc, hsl2, hs2⟩ := readChildren_ok es t.token_trees slots
        (heslen.symm ▸ rfl) (fun j c e hc he => hent j c e hc he) hnd hpres hsl
      have hteta : (({ delimiter := { openSpan := r.openSpan, closeSpan := r.closeSpan, kind := r.kind }, token_trees := t.token_trees }) : Subtree) = t := by
        rw [hopen, hclose, hkind]
      have hinv' : ∀ m, m < ts.length → (slots2.set i (some t))[m]? =
          some (if i ≤ m ∧ m < 1 + rcOf w i then ts[m]? else none) := by
        intro m hm
        by_cases hmi : m = i
        · subst hmi
          rw [List.getElem?_set_eq_of_lt (some t) (by omega),
            if_pos ⟨Nat.le_refl m, by omega⟩, ht]
        · rw [List.getElem?_set_ne (fun hh => hmi hh.symm)]
          rw [hs2 m hm]
          by_cases hmem : m ∈ subtreeRefs es
          · rw [if_pos hmem]
            rw [hrun] at hmem
            have hb := List.mem_range'_1.mp hmem
            rw [if_neg (by omega)]
          · rw [if_neg hmem, hinv m hm]
            rw [hrun] at hmem
            have hnot : ¬(1 + rcOf w i ≤ m ∧
                m < 1 + rcOf w i + (rcOf w (i + 1) - rcOf w i)) := by
              intro hc
              exact hmem (List.mem_range'_1.mpr hc)
            have heq : (i + 1 ≤ m ∧ m < 1 + rcOf w (i + 1)) ↔
                (i ≤ m ∧ m < 1 + rcOf w i) := by omega
            rw [if_congr heq rfl rfl]
      obtain ⟨slots3, hloop, h0⟩ := ih (slots2.set i (some t)) (by omega)
        (by simp [hsl2]) hinv'
      refine ⟨slots3, ?_, h0⟩
      have hrs : (readerOf w).subtree[i]? = some r := hr
      have htt_eq : (readerOf w).token_tree = w.token_tree := rfl
      simp only [Reader.readLoop, hrs, htt_eq, ← hes]
      rw [if_pos ⟨hle, hhi⟩]
      simp only [Bind.bind, Except.bind, hrc, hteta, hloop]

/-- On the final writer state, `Reader::read` returns the original root. -/
theorem reader_read_ok {root : Subtree} {w : Writer} {ts : List Subtree}
    (hfin : Inv root w [] ts ts.length) :
    Reader.read (readerOf w) = .ok root := by
  have hlen : (readerOf w).subtree.length = ts.length := hfin.hlen
  have hinit : ∀ m, m < ts.length → (List.replicate ts.length
      (none : Option Subtree))[m]? =
      some (if ts.length ≤ m ∧ m < 1 + rcOf w ts.length then ts[m]? else none) := by
    intro m hm
    rw [List.getElem?_replicate_of_lt hm, if_neg (by omega)]
  obtain ⟨slots2, hloop, h0⟩ := readLoop_ok hfin ts.length
    (List.replicate ts.length none) (Nat.le_refl _) (by simp) hinit
  unfold Reader.read
  rw [hlen, hloop]
  simp only [Bind.bind, Except.bind, h0]

/-- Encode–decode round trip: for a span-well-formed tree, at a version that
encodes close spans and satisfies the span-width compatibility assert, the
encoder succeeds and the decoder returns the original tree. -/
theorem roundTrip (L VSS ECS version : Nat) (root : Subtree)
    (hwf : SubWf L root) (hcompat : L = 1 ∨ VSS ≤ version)
    (hclose : ECS ≤ version) :
    ∃ ft, FlatTree.new L VSS ECS root version = some ft ∧
      FlatTree.to_subtree L VSS ECS ft version = .ok root := by
  obtain ⟨ft, hnew, htt, htx, hz, hsub, hlit, hpun, hidn⟩ :=
    new_reads L VSS ECS version root hwf hcompat hclose
  obtain ⟨ts, hfin⟩ := write_inv root
  refine ⟨ft, hnew, ?_⟩
  unfold FlatTree.to_subtree
  rw [if_pos ⟨Or.symm hcompat, hz.symm⟩, if_pos hclose]
  simp only [Bind.bind, Except.bind, hsub, hlit, hpun, hidn, htt, htx]
  exact reader_read_ok hfin

/-! ## Shape of the span side table (width selection) -/

theorem serialize_span_L1 (m : SpanMap) (sp : Span) :
    (m.serialize_span 1 sp).1 = m := by
  unfold SpanMap.serialize_span
  rw [if_pos rfl]

theorem write_vec_map_id {α : Type} (f : α → SpanMap → SpanMap × List Nat)
    (hf : ∀ x m, (f x m).1 = m) :
    ∀ (xs : List α) (m : SpanMap), (write_vec m xs f).1 = m := by
  intro xs
  induction xs with
  | nil => intro m; rfl
  | cons x rest ih =>
      intro m
      show (write_vec (f x m).1 rest f).1 = m
      rw [ih, hf]

theorem subtree_close_id1 (r : SubtreeRepr) (m : SpanMap) :
    (SubtreeRepr.write_with_close_span 1 r m).1 = m := by
  unfold SubtreeRepr.write_with_close_span
  simp only
  rw [serialize_span_L1, serialize_span_L1]

theorem subtree_id1 (r : SubtreeRepr) (m : SpanMap) :
    (SubtreeRepr.write 1 r m).1 = m := by
  unfold SubtreeRepr.write
  simp only
  rw [serialize_span_L1]

theorem literal_id1 (r : LiteralRepr) (m : SpanMap) :
    (LiteralRepr.write 1 r m).1 = m := by
  unfold LiteralRepr.write
  simp only
  rw [serialize_span_L1]

theorem punct_id1 (r : PunctRepr) (m : SpanMap) :
    (PunctRepr.write 1 r m).1 = m := by
  unfold PunctRepr.write
  simp only
  rw [serialize_span_L1]

theorem ident_id1 (r : IdentRepr) (m : SpanMap) :
    (IdentRepr.write 1 r m).1 = m := by
  unfold IdentRepr.write
  simp only
  rw [serialize_span_L1]

/-- At width `1` the encoder's span side table stays empty at every version. -/
theorem new_spans_L1 (VSS ECS version : Nat) (root : Subtree) (ft : FlatTree)
    (h : FlatTree.new 1 VSS ECS root version = some ft) :
    ft.span_map.spans = [] := by
  simp only [FlatTree.new] at h
  rw [if_pos (Or.inl trivial)] at h
  by_cases hc : ECS ≤ version
  · rw [if_pos hc] at h
    rw [write_vec_map_id _ ident_id1, write_vec_map_id _ punct_id1,
      write_vec_map_id _ literal_id1, write_vec_map_id _ subtree_close_id1] at h
    have he := Option.some.inj h
    subst he
    rfl
  · rw [if_neg hc] at h
    rw [write_vec_map_id _ ident_id1, write_vec_map_id _ punct_id1,
      write_vec_map_id _ literal_id1, write_vec_map_id _ subtree_id1] at h
    have he := Option.some.inj h
    subst he
    rfl

theorem serialize_span_mod (L : Nat) (m : SpanMap) (sp : Span)
    (h : sp.length = L) :
    (m.serialize_span L sp).1.spans.length % L = m.spans.length % L := by
  unfold SpanMap.serialize_span
  by_cases hL : L = 1
  · rw [if_pos hL]
  · rw [if_neg hL]
    simp only [List.length_append, h]
    exact Nat.add_mod_right _ _

theorem write_vec_mod {α : Type} (L : Nat) (f : α → SpanMap → SpanMap × List Nat)
    (P : α → Prop)
    (hf : ∀ x m, P x → (f x m).1.spans.length % L = m.spans.length % L) :
    ∀ (xs : List α) (m : SpanMap), (∀ x ∈ xs, P x) →
      (write_vec m xs f).1.spans.length % L = m.spans.length % L := by
  intro xs
  induction xs with
  | nil => intro m _; rfl
  | cons x rest ih =>
      intro m hx
      show (write_vec (f x m).1 rest f).1.spans.length % L = _
      rw [ih (f x m).1 (fun y hy => hx y (List.mem_cons_of_mem _ hy)),
        hf x m (hx x (List.mem_cons_self ..))]

theorem subtree_close_wmod (L : Nat) (r : SubtreeRepr) (m : SpanMap)
    (h : r.openSpan.length = L ∧ r.closeSpan.length = L) :
    (SubtreeRepr.write_with_close_span L r m).1.spans.length % L =
      m.spans.length % L := by
  unfold SubtreeRepr.write_with_close_span
  simp only
  rw [serialize_span_mod L _ r.closeSpan h.2, serialize_span_mod L m r.openSpan h.1]

theorem subtree_wmod (L : Nat) (r : SubtreeRepr) (m : SpanMap)
    (h : r.openSpan.length = L ∧ r.closeSpan.length = L) :
    (SubtreeRepr.write L r m).1.spans.length % L = m.spans.length % L := by
  unfold SubtreeRepr.write
  simp only
  rw [serialize_span_mod L m r.openSpan h.1]

theorem literal_wmod (L : Nat) (r : LiteralRepr) (m : SpanMap)
    (h : r.id.length = L) :
    (LiteralRepr.write L r m).1.spans.length % L = m.spans.length % L := by
  unfold LiteralRepr.write
  simp only
  rw [serialize_span_mod L m r.id h]

theorem punct_wmod (L : Nat) (r : PunctRepr) (m : SpanMap)
    (h : r.id.length = L) :
    (PunctRepr.write L r m).1.spans.length % L = m.spans.length % L := by
  unfold PunctRepr.write
  simp only
  rw [serialize_span_mod L m r.id h]

theorem ident_wmod (L : Nat) (r : IdentRepr) (m : SpanMap)
    (h : r.id.length = L) :
    (IdentRepr.write L r m).1.spans.length % L = m.spans.length % L := by
  unfold IdentRepr.write
  simp only
  rw [serialize_span_mod L m r.id h]

/-- The encoder's side table has length a multiple of the span width for a
span-well-formed tree, at every version. -/
theorem new_spans_mod (L VSS ECS version : Nat) (root : Subtree) (ft : FlatTree)
    (hwf : SubWf L root)
    (h : FlatTree.new L VSS ECS root version = some ft) :
    ft.span_map.spans.length % L = 0 := by
  obtain ⟨ts, hfin⟩ := write_inv root
  obtain ⟨hwsub, hwlit, hwpun, hwide⟩ := hfin.hwf L hwf
  simp only [FlatTree.new] at h
  by_cases hg : L = 1 ∨ VSS ≤ version
  · rw [if_pos hg] at h
    by_cases hc : ECS ≤ version
    · rw [if_pos hc] at h
      have he := Option.some.inj h
      subst he
      dsimp only
      rw [write_vec_mod L _ _ (ident_wmod L) _ _ hwide,
        write_vec_mod L _ _ (punct_wmod L) _ _ hwpun,
        write_vec_mod L _ _ (literal_wmod L) _ _ hwlit,
        write_vec_mod L _ _ (subtree_close_wmod L) _ _ hwsub]
      simp
    · rw [if_neg hc] at h
      have he := Option.some.inj h
      subst he
      dsimp only
      rw [write_vec_mod L _ _ (ident_wmod L) _ _ hwide,
        write_vec_mod L _ _ (punct_wmod L) _ _ hwpun,
        write_vec_mod L _ _ (literal_wmod L) _ _ hwlit,
        write_vec_mod L _ _ (subtree_wmod L) _ _ hwsub]
      simp
  · rw [if_neg hg] at h
    exact absurd h (by simp)

/-! ## The decoder can never report an unrecognized tag -/

theorem to_subtree_never_badTag (L VSS ECS version : Nat) (ft : FlatTree) :
    FlatTree.to_subtree L VSS ECS ft version ≠ .error .badTag := by
  unfold FlatTree.to_subtree
  split
  · have hrest : ∀ sub : List SubtreeRepr,
        (do
          let lit ← read_vec ft.span_map ft.literal (LiteralRepr.read L) 2
          let pun ← read_vec ft.span_map ft.punct (PunctRepr.read L) 3
          let idn ← read_vec ft.span_map ft.ident (IdentRepr.read L) 2
          Reader.read { subtree := sub, literal := lit, punct := pun, ident := idn, token_tree := ft.token_tree, text := ft.text }) ≠
          Except.error DErr.badTag := by
      intro sub
      apply bind_ne_badTag
      · exact read_vec_ne_badTag _ _ _ _
          (fun c => literalRead_ne_badTag L c ft.span_map)
      · intro lit
        apply bind_ne_badTag
        · exact read_vec_ne_badTag _ _ _ _
            (fun c => punctRead_ne_badTag L c ft.span_map)
        · intro pun
          apply bind_ne_badTag
          · exact read_vec_ne_badTag _ _ _ _
              (fun c => identRead_ne_badTag L c ft.span_map)
          · intro idn
            exact read_ne_badTag _
    dsimp only
    split
    · exact bind_ne_badTag _ _ (read_vec_ne_badTag _ _ _ _
        (fun c => subtreeReadClose_ne_badTag L c ft.span_map)) hrest
    · exact bind_ne_badTag _ _ (read_vec_ne_badTag _ _ _ _
        (fun c => subtreeRead_ne_badTag L c ft.span_map)) hrest
  · simp

/-! ## Splitting a successful `Except` bind -/

theorem except_bind_ok {α β : Type} {x : Except DErr α} {f : α → Except DErr β}
    {b : β} (h : (x >>= f) = .ok b) : ∃ a, x = .ok a ∧ f a = .ok b := by
  cases x with
  | error e => simp [Bind.bind, Except.bind] at h
  | ok a => exact ⟨a, rfl, by simpa [Bind.bind, Except.bind] using h⟩

/-! ## Every leaf text of the tree reaches the string table -/

theorem directLeafTexts_mem {cs : List TokenTree} {s : String}
    (h : s ∈ directLeafTexts cs) :
    ∃ (j : Nat) (c : TokenTree), cs[j]? = some c ∧
      ((∃ sp, c = .leafLiteral s sp) ∨ (∃ sp, c = .leafIdent s sp)) := by
  obtain ⟨c, hc, he⟩ := List.mem_filterMap.mp h
  obtain ⟨j, hj⟩ := getq_exists_of_mem hc
  cases c with
  | subtree d cs0 => exact absurd he (by simp)
  | leafLiteral s0 sp =>
      refine ⟨j, _, hj, Or.inl ⟨sp, ?_⟩⟩
      simp only [Option.some.injEq] at he
      rw [he]
  | leafPunct ch spc sp => exact absurd he (by simp)
  | leafIdent s0 sp =>
      refine ⟨j, _, hj, Or.inr ⟨sp, ?_⟩⟩
      simp only [Option.some.injEq] at he
      rw [he]

theorem text_complete {root : Subtree} {w : Writer} {ts : List Subtree}
    (hfin : Inv root w [] ts ts.length) :
    ∀ s ∈ root.leafTexts, s ∈ w.text := by
  intro s hs
  obtain ⟨t', hr, hd⟩ := leafTexts_to_reach root.size root root (Nat.le_refl _)
    Reach.refl s hs
  obtain ⟨i, hi⟩ := getq_exists_of_mem (reach_mem_ts hfin t' hr)
  have hilt : i < ts.length := (List.getElem?_eq_some.mp hi).1
  obtain ⟨r, t2, hr2, ht2, _, _, _, h12, h2len, hlenq, hent⟩ := hfin.hproc i hilt
  have htt : t2 = t' := by
    rw [hi] at ht2
    simpa using ht2.symm
  subst htt
  obtain ⟨j, c, hj, hc⟩ := directLeafTexts_mem hd
  have hjlt : j < t2.token_trees.length := (List.getElem?_eq_some.mp hj).1
  have hse : ∃ e, (sliceTT w.token_tree r.tt.1 r.tt.2)[j]? = some e := by
    rw [List.getElem?_eq_getElem
      (by rw [sliceTT_length _ _ _ h12 h2len]; omega)]
    exact ⟨_, rfl⟩
  obtain ⟨e, he⟩ := hse
  have hok := hent j c e hj he
  rcases hc with ⟨sp, rfl⟩ | ⟨sp, rfl⟩
  · obtain ⟨li, ti, _, _, hts⟩ := hok
    exact getq_mem hts
  · obtain ⟨ii, ti, _, _, hts⟩ := hok
    exact getq_mem hts

theorem nodup_getq_inj {α : Type} {l : List α} (hnd : l.Nodup) {i j : Nat}
    {x : α} (hi : l[i]? = some x) (hj : l[j]? = some x) : i = j := by
  have hilt : i < l.length := (List.getElem?_eq_some.mp hi).1
  exact List.getElem?_inj hilt hnd (hi.trans hj.symm)

/-! ## Concrete trees and wire structures for the claims -/

/-- A childless parenthesis subtree with distinct open/close spans (width 1). -/
def rootC1 : Subtree :=
  { delimiter := { openSpan := [5], closeSpan := [7], kind := .parenthesis }, token_trees := [] }

/-- The encoding of `rootC1` at a version below `ENCODE_CLOSE_SPAN_VERSION`. -/
def ftC1 : FlatTree :=
  { subtree := [5, 1, 0, 0], literal := [], punct := [], ident := [], token_tree := [], text := [], span_map := { serialize := false, span_size := 1, spans := [] } }

/-- What `ftC1` decodes to: the close span has become the dummy span. -/
def decodedC1 : Subtree :=
  { delimiter := { openSpan := [5], closeSpan := [4294967295], kind := .parenthesis }, token_trees := [] }

/-- Scenario A input: a parenthesis subtree holding one identifier `"Foo"`. -/
def rootA : Subtree :=
  { delimiter := { openSpan := [9], closeSpan := [10], kind := .parenthesis }, token_trees := [.leafIdent "Foo" [11]] }

/-- A root with one subtree child (gives a subtree-tagged wire entry). -/
def rootB : Subtree :=
  { delimiter := { openSpan := [1], closeSpan := [2], kind := .invisible }, token_trees := [.subtree { openSpan := [3], closeSpan := [4], kind := .parenthesis } []] }

/-- The root record the encoder produces for `rootB`. -/
def rB0 : SubtreeRepr :=
  { openSpan := [1], closeSpan := [2], kind := .invisible, tt := (0, 1) }

/-- A tree with an identifier and a literal sharing the text `"x"`. -/
def rootDup : Subtree :=
  { delimiter := { openSpan := [0], closeSpan := [0], kind := .invisible }, token_trees := [.leafIdent "x" [1], .leafLiteral "x" [2]] }

/-- A wire structure with a second subtree record no child entry references. -/
def ftOrphan : FlatTree :=
  { subtree := [0, 0, 0, 0, 0, 0, 0, 0, 0, 0], literal := [], punct := [], ident := [], token_tree := [], text := [], span_map := { serialize := false, span_size := 1, spans := [] } }

/-- The childless invisible subtree both records of `ftOrphan` describe. -/
def subOrphan : Subtree :=
  { delimiter := { openSpan := [0], closeSpan := [0], kind := .invisible }, token_trees := [] }

/-- The reader state `FlatTree.to_subtree` builds from `ftOrphan`. -/
def readerOrphan : Reader :=
  { subtree := [{ openSpan := [0], closeSpan := [0], kind := .invisible, tt := (0, 0) }, { openSpan := [0], closeSpan := [0], kind := .invisible, tt := (0, 0) }], literal := [], punct := [], ident := [], token_tree := [], text := [] }

/-- A wire structure whose recorded span width is 2. -/
def ftBad : FlatTree :=
  { subtree := [], literal := [], punct := [], ident := [], token_tree := [], text := [], span_map := { serialize := false, span_size := 2, spans := [] } }

/-- An empty reader state. -/
def readerNil : Reader :=
  { subtree := [], literal := [], punct := [], ident := [], token_tree := [], text := [] }

/-! ## The claims -/

/-- C1 (amended): the round-trip law needs one more hypothesis than the spec
states.  For every span-well-formed tree and every version compatible with
the span width (`L = 1` or variable-width spans supported) **that also
encodes close spans** (`ECS ≤ version`), decoding the encoding returns the
original tree exactly — delimiter kinds, child order, leaf text/char/spacing
and all span values included.  Without `ECS ≤ version` the close spans are
lost (see the counterexample). -/
theorem C1_round_trip (L VSS ECS version : Nat) (root : Subtree)
    (hwf : SubWf L root) (hcompat : L = 1 ∨ VSS ≤ version)
    (hclose : ECS ≤ version) :
    ∃ ft, FlatTree.new L VSS ECS root version = some ft ∧
      FlatTree.to_subtree L VSS ECS ft version = .ok root :=
  roundTrip L VSS ECS version root hwf hcompat hclose

theorem C1_round_trip_witness :
    SubWf 1 rootC1 ∧ ((1 : Nat) = 1 ∨ 3 ≤ 2) ∧ (2 : Nat) ≤ 2 ∧
    ∃ ft, FlatTree.new 1 3 2 rootC1 2 = some ft ∧
      FlatTree.to_subtree 1 3 2 ft 2 = .ok rootC1 := by
  have hwf : SubWf 1 rootC1 :=
    TTWf.subtree rfl rfl (fun c hc => by simp [rootC1] at hc)
  exact ⟨hwf, Or.inl rfl, by omega,
    C1_round_trip 1 3 2 2 rootC1 hwf (Or.inl rfl) (by omega)⟩

/-- C1 counterexample: at width 1 every version is compatible in the claim's
sense, yet decoding the version-1 encoding of `rootC1` (encoded below
`ENCODE_CLOSE_SPAN_VERSION = 2`) yields the dummy close span, not the
original `[7]`. -/
theorem C1_close_span_lost :
    FlatTree.new 1 3 2 rootC1 1 = some ftC1 ∧
    FlatTree.to_subtree 1 3 2 ftC1 1 = .ok decodedC1 ∧
    decodedC1 ≠ rootC1 := by
  refine ⟨?_, ?_, ?_⟩
  · simp [FlatTree.new, Writer.write, Writer.drain, Writer.subtreeStep,
      Writer.writeChildren, Writer.enqueue, Writer.init, setTT,
      rootC1, ftC1, write_vec, SubtreeRepr.write, SpanMap.serialize_span,
      kindToNat, queueMeasure]
  · simp [FlatTree.to_subtree, ftC1, decodedC1, read_vec, exactChunks,
      SubtreeRepr.read, kindOfNat, SpanMap.deserialize_span, dummySpan, UMAX,
      Reader.read, Reader.readLoop, Reader.readChildren, Reader.readEntry,
      sliceTT, takeSlot, Bind.bind, Except.bind, List.mapM, List.mapM.loop,
      pure, Except.pure]
  · simp [decodedC1, rootC1]

/-- C2: on every encoder output, a subtree-tagged entry inside a record's
children range references a strictly larger record index, and never index 0;
the wire `token_tree` is exactly the writer's. -/
theorem C2_index_monotonic (root : Subtree) :
    (∀ (i : Nat) (r : SubtreeRepr), (Writer.write root).subtree[i]? = some r →
      ∀ e ∈ sliceTT (Writer.write root).token_tree r.tt.1 r.tt.2,
        e &&& 3 = 0 → i < e >>> 2 ∧ e >>> 2 ≠ 0) ∧
    (∀ (L VSS ECS version : Nat) (ft : FlatTree),
      FlatTree.new L VSS ECS root version = some ft →
      ft.token_tree = (Writer.write root).token_tree) := by
  obtain ⟨ts, hfin⟩ := write_inv root
  constructor
  · intro i r hr e hmem htag
    have hilt0 : i < (Writer.write root).subtree.length :=
      (List.getElem?_eq_some.mp hr).1
    have hilt : i < ts.length := by
      rw [← hfin.hlen]
      exact hilt0
    obtain ⟨j, hj⟩ := getq_exists_of_mem hmem
    obtain ⟨d0, cs0, m, he, hts, him⟩ :=
      recordOk_entry_tag0 hr (hfin.hproc i hilt) hj htag
    subst he
    rw [shl2_shr2]
    exact ⟨him, by omega⟩
  · intro L VSS ECS version ft h
    simp only [FlatTree.new] at h
    by_cases hg : L = 1 ∨ VSS ≤ version
    · rw [if_pos hg] at h
      by_cases hc : ECS ≤ version
      · rw [if_pos hc] at h
        have he := Option.some.inj h
        subst he
        rfl
      · rw [if_neg hc] at h
        have he := Option.some.inj h
        subst he
        rfl
    · rw [if_neg hg] at h
      cases h

theorem C2_index_monotonic_witness :
    ((Writer.write rootB).subtree[0]? = some rB0) ∧
    ((4 : Nat) ∈ sliceTT (Writer.write rootB).token_tree rB0.tt.1 rB0.tt.2) ∧
    ((4 : Nat) &&& 3 = 0) ∧
    (0 < (4 : Nat) >>> 2 ∧ (4 : Nat) >>> 2 ≠ 0) := by
  have h1 : (Writer.write rootB).subtree[0]? = some rB0 := by
    simp [Writer.write, Writer.drain, Writer.subtreeStep, Writer.writeChildren,
      Writer.writeChild, Writer.enqueue, Writer.intern, Writer.init, setTT,
      rootB, rB0, queueMeasure]
  have h2 : (4 : Nat) ∈ sliceTT (Writer.write rootB).token_tree rB0.tt.1 rB0.tt.2 := by
    simp [Writer.write, Writer.drain, Writer.subtreeStep, Writer.writeChildren,
      Writer.writeChild, Writer.enqueue, Writer.intern, Writer.init, setTT,
      rootB, rB0, queueMeasure, sliceTT]
  exact ⟨h1, h2, by decide, (C2_index_monotonic rootB).1 0 rB0 h1 4 h2 (by decide)⟩

/-- C3 (amended): a parent's take of an already-emptied slot is fatal
(`takeEmpty`), and an emptied root slot at the end is fatal — but the claim's
end-of-decode check does not exist: no slot other than slot 0 is inspected
after the loop, so a still-populated orphan slot is *not* detected (see the
counterexample). -/
theorem C3_take_discipline :
    (∀ (r : Reader) (slots : List (Option Subtree)) (m : Nat),
      slots[m]? = some none →
      r.readEntry slots (m <<< 2) = .error .takeEmpty) ∧
    (∀ (r : Reader) (slots2 : List (Option Subtree)),
      r.readLoop r.subtree.length (List.replicate r.subtree.length none) =
        .ok slots2 →
      slots2[0]? = some none → r.read = .error .takeEmpty) := by
  constructor
  · intro r slots m h
    simp only [Reader.readEntry, shl2_and3, shl2_shr2, takeSlot, h]
    simp [Bind.bind, Except.bind]
  · intro r slots2 hloop h0
    unfold Reader.read
    rw [hloop]
    simp [Bind.bind, Except.bind, h0]

theorem C3_take_discipline_witness :
    (([none] : List (Option Subtree))[0]? = some none) ∧
    readerNil.readEntry [none] (0 <<< 2) = .error .takeEmpty :=
  ⟨rfl, C3_take_discipline.1 readerNil [none] 0 rfl⟩

/-- C3 counterexample: `ftOrphan` carries a second subtree record that no
child entry references; after the loop its slot is still populated, yet
`to_subtree` returns a tree instead of failing. -/
theorem C3_populated_slot_not_fatal :
    readerOrphan.readLoop 2 [none, none] =
      .ok [some subOrphan, some subOrphan] ∧
    FlatTree.to_subtree 1 3 2 ftOrphan 2 = .ok subOrphan := by
  constructor
  · simp [readerOrphan, subOrphan, Reader.readLoop, Reader.readChildren,
      Reader.readEntry, sliceTT, takeSlot, Bind.bind, Except.bind]
  · simp [FlatTree.to_subtree, ftOrphan, subOrphan, read_vec, exactChunks,
      SubtreeRepr.read_with_close_span, kindOfNat, SpanMap.deserialize_span,
      Reader.read, Reader.readLoop, Reader.readChildren, Reader.readEntry,
      sliceTT, takeSlot, Bind.bind, Except.bind, List.mapM, List.mapM.loop,
      pure, Except.pure]

/-- C4: the writer's string table is duplicate-free, holds exactly the leaf
texts of the tree, a given content occupies a single index, and the wire copies
the table verbatim. -/
theorem C4_string_dedup (root : Subtree) :
    (Writer.write root).text.Nodup ∧
    (∀ s, s ∈ (Writer.write root).text ↔ s ∈ root.leafTexts) ∧
    (∀ (i j : Nat) (s : String), (Writer.write root).text[i]? = some s →
      (Writer.write root).text[j]? = some s → i = j) ∧
    (∀ (L VSS ECS version : Nat) (ft : FlatTree),
      FlatTree.new L VSS ECS root version = some ft →
      ft.text = (Writer.write root).text) := by
  obtain ⟨ts, hfin⟩ := write_inv root
  refine ⟨hfin.hnodup, ?_, ?_, ?_⟩
  · intro s
    constructor
    · intro hs
      obtain ⟨t, hts, hd⟩ := hfin.htext s hs
      exact leafTexts_of_reach (hfin.hreach t hts) s
        ((mem_leafTexts t s).mpr (Or.inl hd))
    · exact fun hs => text_complete hfin s hs
  · intro i j s hi hj
    exact nodup_getq_inj hfin.hnodup hi hj
  · intro L VSS ECS version ft h
    simp only [FlatTree.new] at h
    by_cases hg : L = 1 ∨ VSS ≤ version
    · rw [if_pos hg] at h
      by_cases hc : ECS ≤ version
      · rw [if_pos hc] at h
        have he := Option.some.inj h
        subst he
        rfl
      · rw [if_neg hc] at h
        have he := Option.some.inj h
        subst he
        rfl
    · rw [if_neg hg] at h
      cases h

theorem C4_string_dedup_witness :
    (Writer.write rootDup).text = ["x"] ∧
    ((Writer.write rootDup).text[0]? = some "x") ∧ (0 : Nat) = 0 := by
  have h0 : (Writer.write rootDup).text[0]? = some "x" := by
    simp [Writer.write, Writer.drain, Writer.subtreeStep, Writer.writeChildren,
      Writer.writeChild, Writer.enqueue, Writer.intern, Writer.init, setTT,
      rootDup, queueMeasure, List.lookup]
  refine ⟨?_, h0, (C4_string_dedup rootDup).2.2.1 0 0 "x" h0 h0⟩
  simp [Writer.write, Writer.drain, Writer.subtreeStep, Writer.writeChildren,
    Writer.writeChild, Writer.enqueue, Writer.intern, Writer.init, setTT,
    rootDup, queueMeasure, List.lookup]

/-- C5: encoding at span width 1 leaves the span side table empty at every
version; at width 3 with variable-width spans supported, the side table's
length is an exact multiple of 3 (one 3-word group per serialized span). -/
theorem C5_width_selection :
    (∀ (VSS ECS version : Nat) (root : Subtree) (ft : FlatTree),
      FlatTree.new 1 VSS ECS root version = some ft →
      ft.span_map.spans = []) ∧
    (∀ (VSS ECS version : Nat) (root : Subtree) (ft : FlatTree),
      SubWf 3 root → VSS ≤ version →
      FlatTree.new 3 VSS ECS root version = some ft →
      ft.span_map.spans.length % 3 = 0) :=
  ⟨fun VSS ECS version root ft h => new_spans_L1 VSS ECS version root ft h,
   fun VSS ECS version root ft hwf _ h =>
     new_spans_mod 3 VSS ECS version root ft hwf h⟩

theorem C5_width_selection_witness :
    FlatTree.new 1 5 5 rootC1 0 = some ftC1 ∧ ftC1.span_map.spans = [] := by
  have h : FlatTree.new 1 5 5 rootC1 0 = some ftC1 := by
    simp [FlatTree.new, Writer.write, Writer.drain, Writer.subtreeStep,
      Writer.writeChildren, Writer.enqueue, Writer.init, setTT,
      rootC1, ftC1, write_vec, SubtreeRepr.write, SpanMap.serialize_span,
      kindToNat, queueMeasure]
  exact ⟨h, C5_width_selection.1 5 5 0 rootC1 ftC1 h⟩

/-- C6: decode fails with the entry assertion whenever the wire's recorded
span width differs from the decoder's width `L`, or `L ≠ 1` at a version
without variable-width spans; no tree is produced. -/
theorem C6_decode_width_assert (L VSS ECS version : Nat) (ft : FlatTree)
    (h : L ≠ ft.span_map.span_size ∨ (L ≠ 1 ∧ ¬ VSS ≤ version)) :
    FlatTree.to_subtree L VSS ECS ft version = .error .assertFailed := by
  have hnc : ¬((VSS ≤ version ∨ L = 1) ∧ L = ft.span_map.span_size) := by
    intro hc
    rcases h with h | ⟨h1, h2⟩
    · exact h hc.2
    · rcases hc.1 with hv | hl
      · exact h2 hv
      · exact h1 hl
  unfold FlatTree.to_subtree
  rw [if_neg hnc]

theorem C6_decode_width_assert_witness :
    ((1 : Nat) ≠ ftBad.span_map.span_size ∨
      ((1 : Nat) ≠ 1 ∧ ¬ (3 : Nat) ≤ 0)) ∧
    FlatTree.to_subtree 1 3 2 ftBad 0 = .error .assertFailed :=
  ⟨Or.inl (by decide), C6_decode_width_assert 1 3 2 0 ftBad (Or.inl (by decide))⟩

/-- C7: encode fails (returns no wire structure) exactly when `L ≠ 1` and the
version lacks variable-width spans, and whether it fails is independent of
the tree: the failure exposes no tree-dependent work of the call. -/
theorem C7_encode_assert (L VSS ECS version : Nat) (root other : Subtree) :
    (FlatTree.new L VSS ECS root version = none ↔
      (¬ L = 1 ∧ ¬ VSS ≤ version)) ∧
    (FlatTree.new L VSS ECS root version).isNone =
      (FlatTree.new L VSS ECS other version).isNone := by
  simp only [FlatTree.new]
  by_cases hg : L = 1 ∨ VSS ≤ version
  · rw [if_pos hg, if_pos hg]
    refine ⟨⟨fun h => absurd h (by simp), fun hn => ?_⟩, rfl⟩
    rcases hg with hg | hg
    · exact absurd hg hn.1
    · exact absurd hg hn.2
  · rw [if_neg hg, if_neg hg]
    exact ⟨⟨fun _ => ⟨fun h1 => hg (Or.inl h1), fun h2 => hg (Or.inr h2)⟩,
      fun _ => rfl⟩, rfl⟩

/-- C8: Scenario A — encoding a parenthesis subtree holding the single
identifier `"Foo"` yields `text = ["Foo"]`, one ident record with text index
0, one `token_tree` entry `3` (tag `0b11`, index 0) and one subtree record
with children range `[0, 1)`. -/
theorem C8_scenario_a :
    (Writer.write rootA).text = ["Foo"] ∧
    (Writer.write rootA).ident = [{ id := [11], text := 0 }] ∧
    (Writer.write rootA).token_tree = [3] ∧
    ((3 : Nat) &&& 3 = 3 ∧ (3 : Nat) >>> 2 = 0) ∧
    (Writer.write rootA).subtree =
      [{ openSpan := [9], closeSpan := [10], kind := .parenthesis, tt := (0, 1) }] := by
  refine ⟨?_, ?_, ?_, ⟨by decide, by decide⟩, ?_⟩ <;>
  simp [Writer.write, Writer.drain, Writer.subtreeStep, Writer.writeChildren,
    Writer.writeChild, Writer.enqueue, Writer.intern, Writer.init, setTT,
    rootA, queueMeasure]

/-- C9: the 2-bit tag of every entry is one of the four recognized values, the
per-entry reader can never return the unrecognized-tag failure, and neither
can the whole decoder: the bad-tag branch is unreachable. -/
theorem C9_no_bad_tag (L VSS ECS version : Nat) (ft : FlatTree) (r : Reader)
    (slots : List (Option Subtree)) (e : Nat) :
    e &&& 3 < 4 ∧
    r.readEntry slots e ≠ .error .badTag ∧
    FlatTree.to_subtree L VSS ECS ft version ≠ .error .badTag :=
  ⟨tag_lt_four e, readEntry_ne_badTag r slots e,
    to_subtree_never_badTag L VSS ECS version ft⟩

/-- C10: a successful decode forces every flat array's length to be an exact
multiple of its record width — 5 or 4 words per subtree record according to
the close-span version threshold, 2 per literal, 3 per punct, 2 per ident. -/
theorem C10_chunk_multiples (L VSS ECS version : Nat) (ft : FlatTree)
    (t : Subtree) (h : FlatTree.to_subtree L VSS ECS ft version = .ok t) :
    ft.subtree.length % (if ECS ≤ version then 5 else 4) = 0 ∧
    ft.literal.length % 2 = 0 ∧
    ft.punct.length % 3 = 0 ∧
    ft.ident.length % 2 = 0 := by
  unfold FlatTree.to_subtree at h
  by_cases hg : (VSS ≤ version ∨ L = 1) ∧ L = ft.span_map.span_size
  · rw [if_pos hg] at h
    dsimp only at h
    by_cases hc : ECS ≤ version
    · rw [if_pos hc] at h
      rw [if_pos hc]
      obtain ⟨sub, hsub, h⟩ := except_bind_ok h
      obtain ⟨lit, hlit, h⟩ := except_bind_ok h
      obtain ⟨pun, hpun, h⟩ := except_bind_ok h
      obtain ⟨idn, hidn, h⟩ := except_bind_ok h
      exact ⟨read_vec_ok_mod _ _ _ _ _ hsub, read_vec_ok_mod _ _ _ _ _ hlit,
        read_vec_ok_mod _ _ _ _ _ hpun, read_vec_ok_mod _ _ _ _ _ hidn⟩
    · rw [if_neg hc] at h
      rw [if_neg hc]
      obtain ⟨sub, hsub, h⟩ := except_bind_ok h
      obtain ⟨lit, hlit, h⟩ := except_bind_ok h
      obtain ⟨pun, hpun, h⟩ := except_bind_ok h
      obtain ⟨idn, hidn, h⟩ := except_bind_ok h
      exact ⟨read_vec_ok_mod _ _ _ _ _ hsub, read_vec_ok_mod _ _ _ _ _ hlit,
        read_vec_ok_mod _ _ _ _ _ hpun, read_vec_ok_mod _ _ _ _ _ hidn⟩
  · rw [if_neg hg] at h
    cases h

theorem C10_chunk_multiples_witness :
    FlatTree.to_subtree 1 3 2 ftC1 1 = .ok decodedC1 ∧
    (ftC1.subtree.length % (if (2 : Nat) ≤ 1 then 5 else 4) = 0 ∧
     ftC1.literal.length % 2 = 0 ∧
     ftC1.punct.length % 3 = 0 ∧
     ftC1.ident.length % 2 = 0) := by
  have hdec : FlatTree.to_subtree 1 3 2 ftC1 1 = .ok decodedC1 := by
    simp [FlatTree.to_subtree, ftC1, decodedC1, read_vec, exactChunks,
      SubtreeRepr.read, kindOfNat, SpanMap.deserialize_span, dummySpan, UMAX,
      Reader.read, Reader.readLoop, Reader.readChildren, Reader.readEntry,
      sliceTT, takeSlot, Bind.bind, Except.bind, List.mapM, List.mapM.loop,
      pure, Except.pure]
  exact ⟨hdec, C10_chunk_multiples 1 3 2 1 ftC1 decodedC1 hdec⟩

end Flat
